import Mathlib

set_option maxRecDepth 8192

/-!
Verification of the ConfigSift configuration-diff core: a shallow embedding of
the parsing / diffing / risk-rule / redaction / line-resolution pipeline,
with theorems about its specified properties.

JavaScript records (`Record<string, string>`) are modelled as association
lists in which the first binding of a key is its value; `Object.keys` order is
the list order.  JavaScript `Set` / `Map` iteration order (insertion order) is
modelled explicitly.  External platform primitives (`JSON.parse`, the `yaml`
library document, `new URL`, `String.prototype.localeCompare`) are either
modelled (documented at the definition) or taken as parameters.
-/

/-! ## JavaScript string primitives -/

/-- Whitespace for JS `trim` and `\s`: tab, LF, VT, FF, CR, space, NBSP, BOM. -/
def isJsWs (c : Char) : Bool :=
  c = ' ' || c = '\t' || c = '\n' || c = '\r' || c.toNat = 11 || c.toNat = 12 ||
  c.toNat = 160 || c.toNat = 65279

def trimStartL (l : List Char) : List Char := l.dropWhile isJsWs

def trimEndL (l : List Char) : List Char := (l.reverse.dropWhile isJsWs).reverse

/-- JS `String.prototype.trim`. -/
def jsTrim (s : String) : String := ⟨trimEndL (trimStartL s.data)⟩

/-- JS `String.prototype.trimEnd`. -/
def jsTrimEnd (s : String) : String := ⟨trimEndL s.data⟩

/-- First index of a character in a list, if any. -/
def idxOfChar : List Char → Char → Option Nat
  | [], _ => none
  | c :: rest, t =>
    if c = t then some 0
    else match idxOfChar rest t with
      | some i => some (i + 1)
      | none => none

/-- JS `s.indexOf(c)` for a single-character needle, as an `Option`. -/
def jsIndexOfChar (s : String) (c : Char) : Option Nat := idxOfChar s.data c

/-- JS `s.slice(a, b)` for non-negative indices. -/
def jsSlice (s : String) (a b : Nat) : String := ⟨(s.data.drop a).take (b - a)⟩

/-- JS `s.slice(a)` for a non-negative index. -/
def jsSliceFrom (s : String) (a : Nat) : String := ⟨s.data.drop a⟩

/-- Infix (substring) test on character lists, for JS `String.prototype.includes`. -/
def listIsInfix (pat l : List Char) : Bool :=
  (List.range (l.length + 1)).any (fun i => (l.drop i).take pat.length = pat)

/-- JS `s.includes(pat)`. -/
def jsIncludes (s pat : String) : Bool := listIsInfix pat.data s.data

/-- JS `s.startsWith(pat)`. -/
def jsStartsWith (s pat : String) : Bool := s.data.take pat.data.length = pat.data

/-- JS `s.endsWith(pat)`. -/
def jsEndsWith (s pat : String) : Bool :=
  s.data.drop (s.data.length - pat.data.length) = pat.data ∧ pat.data.length ≤ s.data.length

/-- JS `s.split("\n")`: split a character list at every LF. -/
def splitLinesL : List Char → List (List Char)
  | [] => [[]]
  | c :: rest =>
    let r := splitLinesL rest
    if c = '\n' then [] :: r
    else match r with
      | [] => [[c]]
      | h :: t => (c :: h) :: t

/-- JS `text.split("\n")` on a string. -/
def jsSplitLines (s : String) : List String := (splitLinesL s.data).map (fun l => ⟨l⟩)

/-- JS `text.replace(/\r\n/g, "\n")`. -/
def stripCrLfL : List Char → List Char
  | [] => []
  | '\r' :: '\n' :: rest => '\n' :: stripCrLfL rest
  | c :: rest => c :: stripCrLfL rest

/-- Global replacement of a two-character pattern by one character, left to
right and non-overlapping, as JS `replace(/ab/g, "c")`. -/
def replacePairL (a b r : Char) : List Char → List Char
  | [] => []
  | [c] => [c]
  | c :: d :: rest =>
    if c = a ∧ d = b then r :: replacePairL a b r rest
    else c :: replacePairL a b r (d :: rest)

/-- JS single-char `String.prototype.repeat`. -/
def repeatChar (c : Char) (n : Nat) : String := ⟨List.replicate n c⟩

/-- JS `str.repeat(n)` for an arbitrary string. -/
def jsRepeat (s : String) (n : Nat) : String := ⟨(List.replicate n s.data).flatten⟩

namespace engine

/-! ## Diff engine (packages/engine/src/core/diff.ts) -/

/-- Primary collation weight: case-folded code point, shifted so every weight
is positive.  Part of the model of the ICU root collation used by
`String.prototype.localeCompare` under the default locale. -/
def primWeight (c : Char) : Nat := c.toLower.toNat + 1

/-- Tertiary collation weight: lowercase sorts before uppercase on primary
ties, as in the ICU root collation. -/
def tertWeight (c : Char) : Nat := (if c.isUpper then c.toNat + 2000 else c.toNat) + 1

/-- Two-level collation key: all primary weights, a separator strictly below
every weight, then all tertiary weights.  Lexicographic order on these keys
is the model of default-locale collation. -/
def collationKey (s : String) : List Nat :=
  s.data.map primWeight ++ 0 :: s.data.map tertWeight

/-- Modelled from the ECMAScript builtin `String.prototype.localeCompare`
under the default (root) locale, restricted to the behaviour relevant here:
comparison is primarily case-insensitive on code points, with lowercase
before uppercase on primary ties.  In every locale, `"a".localeCompare("B")`
is negative although `"B" < "a"` in code-unit order. -/
def localeCompare (a b : String) : Int :=
  if collationKey a < collationKey b then -1
  else if collationKey a = collationKey b then 0 else 1

/-- The ordering relation induced by the `localeCompare` comparator, used by
`Array.prototype.sort((a, b) => a.localeCompare(b))`. -/
def localeLe (a b : String) : Prop := collationKey a ≤ collationKey b

instance : DecidableRel localeLe :=
  fun a b => inferInstanceAs (Decidable (collationKey a ≤ collationKey b))

instance : IsTotal String localeLe := ⟨fun a b => le_total (collationKey a) (collationKey b)⟩

instance : IsTrans String localeLe := ⟨fun _ _ _ h h' => le_trans h h'⟩

/-- JS `new Set(list)` iteration order: first occurrences, in order. -/
def jsSetDedupAux : List String → List String → List String
  | _, [] => []
  | seen, k :: rest =>
    if k ∈ seen then jsSetDedupAux seen rest
    else k :: jsSetDedupAux (k :: seen) rest

/-- JS `Array.from(new Set(l))`. -/
def jsSetDedup (l : List String) : List String := jsSetDedupAux [] l

/-- JS `Object.keys` of a record modelled as an association list (first
binding wins, as a record has no duplicate keys). -/
def jsKeys (m : List (String × String)) : List String := jsSetDedup (m.map Prod.fst)

/-- JS `Object.prototype.hasOwnProperty.call(m, k)`. -/
def jsHas (m : List (String × String)) (k : String) : Bool := (m.lookup k).isSome

/-- JS `m[k]` where the key is known to be present (defaults to `""`). -/
def jsGet (m : List (String × String)) (k : String) : String := (m.lookup k).getD ""

structure AddedEntry where
  key : String
  value : String
deriving DecidableEq, Repr

structure RemovedEntry where
  key : String
  value : String
deriving DecidableEq, Repr

structure ChangedEntry where
  key : String
  fromV : String
  toV : String
deriving DecidableEq, Repr

structure UnchangedEntry where
  key : String
  value : String
deriving DecidableEq, Repr

structure DiffResult where
  added : List AddedEntry
  removed : List RemovedEntry
  changed : List ChangedEntry
  unchanged : List UnchangedEntry
deriving DecidableEq, Repr

/-- The key-classification loop of `diffEntries`, building the four lists in
traversal order of the (already sorted) key list. -/
def classify (left right : List (String × String)) : List String → DiffResult
  | [] => ⟨[], [], [], []⟩
  | k :: rest =>
    let d := classify left right rest
    let inL := jsHas left k
    let inR := jsHas right k
    if !inL && inR then { d with added := ⟨k, jsGet right k⟩ :: d.added }
    else if inL && !inR then { d with removed := ⟨k, jsGet left k⟩ :: d.removed }
    else
      let fromV := jsGet left k
      let toV := jsGet right k
      if fromV ≠ toV then { d with changed := ⟨k, fromV, toV⟩ :: d.changed }
      else { d with unchanged := ⟨k, fromV⟩ :: d.unchanged }

/-- `diffEntries` from packages/engine/src/core/diff.ts: union of the key
sets, deduplicated in first-occurrence order, sorted with the
`localeCompare` comparator, then classified per key. -/
def diffEntries (left right : List (String × String)) : DiffResult :=
  classify left right
    (List.insertionSort localeLe (jsSetDedup (jsKeys left ++ jsKeys right)))

/-- Total number of occurrences of a key across the four diff lists. -/
def keyCount (d : DiffResult) (k : String) : Nat :=
  (d.added.map AddedEntry.key).count k + (d.removed.map RemovedEntry.key).count k +
  (d.changed.map ChangedEntry.key).count k + (d.unchanged.map UnchangedEntry.key).count k

/-- Code-unit (ordinal) lexicographic order on strings, the order the
specification claims for diff output. -/
def ordinalLe (a b : String) : Prop := a.data.map Char.toNat ≤ b.data.map Char.toNat

instance : DecidableRel ordinalLe :=
  fun a b => inferInstanceAs (Decidable (a.data.map Char.toNat ≤ b.data.map Char.toNat))

/-! ## Risk rule engine (packages/engine/dist/rules/applyRules.js) -/

inductive Severity where
  | high
  | medium
  | low
deriving DecidableEq, Repr

/-- A risk rule; the `RegExp` pattern fields are embedded as their `test`
predicates, and `message: string | ((key) => string)` as a sum. -/
structure Rule where
  id : String
  severity : Severity
  keyPattern : Option (String → Bool) := none
  valuePattern : Option (String → Bool) := none
  message : Sum String (String → String)

structure RiskFinding where
  key : String
  severity : Severity
  ruleId : String
  message : String
deriving DecidableEq, Repr

/-- `msg(rule, key)`. -/
def msg (rule : Rule) (key : String) : String :=
  match rule.message with
  | Sum.inl s => s
  | Sum.inr f => f key

def MAX_FINDINGS : Nat := 500

/-- Mutable state of `applyRiskRules`: the findings accumulator and the
`seen` fingerprint set (a JS `Set`, modelled as a list queried by
membership). -/
structure RState where
  findings : List RiskFinding
  seen : List String
deriving Repr

/-- The dedupe fingerprint template literal. -/
def fingerprintOf (ruleId context key note : String) : String :=
  ruleId ++ "::" ++ context ++ "::" ++ key ++ "::" ++ note

/-- The finding object `pushFinding` constructs. -/
def mkFinding (key : String) (rule : Rule) (context : String) (note : Option String) :
    RiskFinding :=
  { key := key
    severity := rule.severity
    ruleId := rule.id
    message := msg rule key ++
      (match note with
       | some n => " (" ++ context ++ "; " ++ n ++ ")"
       | none => " (" ++ context ++ ")") }

/-- `pushFinding`: dedupe on the fingerprint (recording it even when the cap
then drops the finding), then cap at `MAX_FINDINGS`. -/
def pushFinding (st : RState) (key : String) (rule : Rule) (context : String)
    (note : Option String) : RState :=
  if fingerprintOf rule.id context key (note.getD "") ∈ st.seen then st
  else if MAX_FINDINGS ≤ st.findings.length then
    ⟨st.findings, fingerprintOf rule.id context key (note.getD "") :: st.seen⟩
  else
    ⟨st.findings ++ [mkFinding key rule context note],
      fingerprintOf rule.id context key (note.getD "") :: st.seen⟩

def matchesKey (rule : Rule) (key : String) : Bool :=
  match rule.keyPattern with
  | some p => p key
  | none => true

def matchesValue (rule : Rule) (value : Option String) : Bool :=
  match rule.valuePattern with
  | none => true
  | some p =>
    match value with
    | none => false
    | some v => p v

def ruleMatches (rule : Rule) (key : String) (value : Option String) : Bool :=
  matchesKey rule key && matchesValue rule value

/-- The `ADDED` loop body for one entry. -/
def processAdded (rules : List Rule) (st : RState) (a : AddedEntry) : RState :=
  rules.foldl
    (fun st rule =>
      if ruleMatches rule a.key (some a.value) then pushFinding st a.key rule "added" none
      else st) st

/-- The `REMOVED` loop body for one entry. -/
def processRemoved (rules : List Rule) (st : RState) (r : RemovedEntry) : RState :=
  rules.foldl
    (fun st rule =>
      if ruleMatches rule r.key (some r.value) then pushFinding st r.key rule "removed" none
      else st) st

/-- The `CHANGED` loop body for one entry and one rule: rules without a
`valuePattern` are evaluated once against the key; rules with one are
evaluated against both `to` (note "matches new value") and `from` (note
"matches old value", only when `to` did not match). -/
def processChangedRule (c : ChangedEntry) (st : RState) (rule : Rule) : RState :=
  match rule.valuePattern with
  | none => if matchesKey rule c.key then pushFinding st c.key rule "changed" none else st
  | some _ =>
    let toHit := ruleMatches rule c.key (some c.toV)
    let fromHit := ruleMatches rule c.key (some c.fromV)
    let st1 :=
      if toHit then pushFinding st c.key rule "changed" (some "matches new value") else st
    if fromHit && !toHit then pushFinding st1 c.key rule "changed" (some "matches old value")
    else st1

structure DiffWithRisk where
  added : List AddedEntry
  removed : List RemovedEntry
  changed : List ChangedEntry
  unchanged : List UnchangedEntry
  findings : List RiskFinding
  warnings : List String

def capWarning : String :=
  "Risk findings capped at " ++ toString MAX_FINDINGS ++
    ". Consider filtering rules or narrowing inputs to reduce noise."

def largeWarning : String := "Large number of risk findings. Consider filtering."

/-- The finding/seen state after the three loops of `applyRiskRules`. -/
def runRules (diff : DiffResult) (rules : List Rule) : RState :=
  diff.changed.foldl (fun st c => rules.foldl (processChangedRule c) st)
    (diff.removed.foldl (processRemoved rules)
      (diff.added.foldl (processAdded rules) ⟨[], []⟩))

/-- `applyRiskRules` from packages/engine/dist/rules/applyRules.js. -/
def applyRiskRules (diff : DiffResult) (rules : List Rule) : DiffWithRisk :=
  let findings := (runRules diff rules).findings
  { added := diff.added
    removed := diff.removed
    changed := diff.changed
    unchanged := diff.unchanged
    findings := findings
    warnings :=
      if MAX_FINDINGS ≤ findings.length then [capWarning]
      else if 200 < findings.length then [largeWarning]
      else [] }

/-! ### Push plans: the sequence of `pushFinding` calls a run performs. -/

/-- One attempted `pushFinding` call. -/
structure PlanItem where
  key : String
  rule : Rule
  context : String
  note : Option String

def itemFp (p : PlanItem) : String := fingerprintOf p.rule.id p.context p.key (p.note.getD "")

def itemFinding (p : PlanItem) : RiskFinding := mkFinding p.key p.rule p.context p.note

def stepItem (st : RState) (p : PlanItem) : RState := pushFinding st p.key p.rule p.context p.note

def planAdded (rules : List Rule) (a : AddedEntry) : List PlanItem :=
  rules.filterMap fun rule =>
    if ruleMatches rule a.key (some a.value) then some ⟨a.key, rule, "added", none⟩ else none

def planRemoved (rules : List Rule) (r : RemovedEntry) : List PlanItem :=
  rules.filterMap fun rule =>
    if ruleMatches rule r.key (some r.value) then some ⟨r.key, rule, "removed", none⟩ else none

def pairItemsChanged (c : ChangedEntry) (rule : Rule) : List PlanItem :=
  match rule.valuePattern with
  | none => if matchesKey rule c.key then [⟨c.key, rule, "changed", none⟩] else []
  | some _ =>
    (if ruleMatches rule c.key (some c.toV) then
      [⟨c.key, rule, "changed", some "matches new value"⟩] else []) ++
      (if ruleMatches rule c.key (some c.fromV) && !ruleMatches rule c.key (some c.toV) then
        [⟨c.key, rule, "changed", some "matches old value"⟩] else [])

def planChanged (rules : List Rule) (c : ChangedEntry) : List PlanItem :=
  rules.flatMap (pairItemsChanged c)

def planOf (diff : DiffResult) (rules : List Rule) : List PlanItem :=
  diff.added.flatMap (planAdded rules) ++ diff.removed.flatMap (planRemoved rules) ++
    diff.changed.flatMap (planChanged rules)

/-- No-colon side condition under which fingerprints decompose uniquely. -/
def noColon (s : String) : Prop := ':' ∉ s.data

instance : DecidablePred noColon := fun s => inferInstanceAs (Decidable (':' ∉ s.data))

/-- The fingerprint components of a plan item. -/
def tupleOf (q : PlanItem) : String × String × String × String :=
  (q.rule.id, q.context, q.key, q.note.getD "")

/-- Number of findings with a given rule id, key and exact message. -/
def countFindings (findings : List RiskFinding) (rid key message : String) : Nat :=
  findings.countP (fun f => f.ruleId == rid && f.key == key && f.message == message)

/-- The finding-count predicate lifted to plan items. -/
def planPred (rid key message : String) (q : PlanItem) : Bool :=
  (itemFinding q).ruleId == rid && (itemFinding q).key == key &&
    (itemFinding q).message == message

/-- Test-vector key of length `i`. -/
def demoKey (i : Nat) : String := ⟨List.replicate i 'k'⟩

/-- Test-vector rule matching the value `"true"`. -/
def demoRule : Rule :=
  { id := "r", severity := Severity.high, valuePattern := some (fun v => v == "true"),
    message := Sum.inl "m" }

/-- `n` changed entries, all flipped `"false" -> "true"`, with distinct keys. -/
def demoChanged (n : Nat) : List ChangedEntry :=
  (List.range n).map (fun i => ⟨demoKey i, "false", "true"⟩)

/-- A diff with 1,000 changed entries that all match `demoRule`. -/
def demoDiff : DiffResult := ⟨[], [], demoChanged 1000, []⟩

/-- The plan item produced for the `i`-th demo entry. -/
def demoItem (i : Nat) : PlanItem := ⟨demoKey i, demoRule, "changed", some "matches new value"⟩

/-- Test-vector rule for the changed-entry semantics: value pattern `true`,
no key pattern. -/
def wRule : Rule :=
  { id := "w", severity := Severity.medium, valuePattern := some (fun v => v == "true"),
    message := Sum.inl "debug on" }

/-! ## Env parser (packages/engine/src/env/parseEnv.ts) -/

structure ParseErrorRec where
  line : Nat
  code : String
  message : String
  raw : String
deriving DecidableEq, Repr

structure DupRecord where
  key : String
  lines : List Nat
deriving DecidableEq, Repr

structure EnvMeta where
  lineCount : Nat
  profile : String
deriving DecidableEq, Repr

structure ParsedConfig where
  format : String
  entries : List (String × String)
  duplicates : List DupRecord
  errors : List ParseErrorRec
  warnings : List String
  meta : EnvMeta
deriving DecidableEq, Repr

/-- `EnvParseOptions`; `none` models an absent option. -/
structure EnvOpts where
  profile : Option String := none
  allowExportPrefix : Option Bool := none
  allowEmptyValues : Option Bool := none
  allowDuplicateKeys : Option Bool := none
  stripInlineComments : Option Bool := none
  allowMultiline : Option Bool := none
  expandVariables : Option Bool := none
  expandFrom : Option (List (String × String)) := none

/-- The options after profile defaults and explicit overrides are merged. -/
structure REnvOpts where
  allowExportPrefix : Bool
  allowEmptyValues : Bool
  allowDuplicateKeys : Bool
  stripInlineComments : Bool
  allowMultiline : Bool
  expandVariables : Bool
  expandFrom : List (String × String)

/-- JS `obj[k] = v` on a record: update in place, else append. -/
def jsObjSet : List (String × String) → String → String → List (String × String)
  | [], k, v => [(k, v)]
  | (k', v') :: rest, k, v =>
    if k' = k then (k, v) :: rest else (k', v') :: jsObjSet rest k v

/-- `recordDup`: append a line number to the key's entry of the `Map`
(insertion order preserved). -/
def recordDup : List (String × List Nat) → String → Nat → List (String × List Nat)
  | [], k, n => [(k, [n])]
  | (k', ls) :: rest, k, n =>
    if k' = k then (k', ls ++ [n]) :: rest else (k', ls) :: recordDup rest k n

/-- `stripInlineCommentSmart`: find the index where an unquoted ` #`/` ;`
comment begins, tracking single/double quote state. -/
def stripICSAux : Bool → Bool → Option Char → Nat → List Char → Option Nat
  | _, _, _, _, [] => none
  | inS, inD, prev, i, ch :: rest =>
    let inS' := if ch = '\'' ∧ ¬ inD then ¬ inS else inS
    let inD' := if ch = '"' ∧ ¬ inS then ¬ inD else inD
    if inS' ∨ inD' then stripICSAux inS' inD' (some ch) (i + 1) rest
    else if (ch = '#' ∨ ch = ';') ∧ 0 < i ∧ (prev = some ' ' ∨ prev = some '\t') then some i
    else stripICSAux inS' inD' (some ch) (i + 1) rest

def stripInlineCommentSmart (value : String) : String :=
  match stripICSAux false false none 0 value.data with
  | some i => jsTrimEnd (jsSlice value 0 i)
  | none => jsTrimEnd value

/-- JS `v.slice(1, -1)`. -/
def jsSliceInner (s : String) : String := ⟨(s.data.drop 1).dropLast⟩

/-- `unquoteAndUnescape`: strip a matching quote pair; inside double quotes
unescape `\n \r \t \" \\` (in that replacement order). -/
def unquoteAndUnescape (value : String) : String :=
  let v := jsTrim value
  let isDouble := jsStartsWith v "\"" && jsEndsWith v "\""
  let isSingle := jsStartsWith v "'" && jsEndsWith v "'"
  if ¬ isDouble ∧ ¬ isSingle then v
  else
    let inner := jsSliceInner v
    if isDouble then
      ⟨replacePairL '\\' '\\' '\\'
        (replacePairL '\\' '"' '"'
          (replacePairL '\\' 't' '\t'
            (replacePairL '\\' 'r' '\r'
              (replacePairL '\\' 'n' '\n' inner.data))))⟩
    else inner

def isAsciiLetter (c : Char) : Bool :=
  ('A' ≤ c ∧ c ≤ 'Z') ∨ ('a' ≤ c ∧ c ≤ 'z')

def isVarStart (c : Char) : Bool := isAsciiLetter c || c = '_'

def isVarChar (c : Char) : Bool := isAsciiLetter c || c.isDigit || c = '_'

/-- `expandVars`: global replacement of the first-match alternation
`\$\{name\}|\$name` (name = `[A-Za-z_][A-Za-z0-9_]*`), resolving against
`dict`, leaving unresolved matches untouched. -/
def expandVarsF (dict : List (String × String)) : Nat → List Char → List Char
  | 0, l => l
  | _ + 1, [] => []
  | _ + 1, ['$'] => ['$']
  | fuel + 1, '$' :: '{' :: r2 =>
    if (match r2 with
        | d :: _ => isVarStart d
        | [] => false) && ((r2.dropWhile isVarChar).headD ' ' == '}') then
      (if (dict.lookup (⟨r2.takeWhile isVarChar⟩ : String)).isSome then
        ((dict.lookup (⟨r2.takeWhile isVarChar⟩ : String)).getD "").data
       else '$' :: '{' :: r2.takeWhile isVarChar ++ ['}']) ++
        expandVarsF dict fuel (r2.dropWhile isVarChar).tail
    else '$' :: expandVarsF dict fuel ('{' :: r2)
  | fuel + 1, '$' :: d :: r2 =>
    if isVarStart d then
      (if (dict.lookup (⟨(d :: r2).takeWhile isVarChar⟩ : String)).isSome then
        ((dict.lookup (⟨(d :: r2).takeWhile isVarChar⟩ : String)).getD "").data
       else '$' :: (d :: r2).takeWhile isVarChar) ++
        expandVarsF dict fuel ((d :: r2).dropWhile isVarChar)
    else '$' :: expandVarsF dict fuel (d :: r2)
  | fuel + 1, c :: rest => c :: expandVarsF dict fuel rest

/-- The scan with enough fuel: every recursive call strictly shortens the
character list, so `l.length` steps always suffice and the fuel-exhausted
base case is unreachable. -/
def expandVarsL (dict : List (String × String)) (l : List Char) : List Char :=
  expandVarsF dict l.length l

def expandVars (value : String) (dict : List (String × String)) : String :=
  ⟨expandVarsL dict value.data⟩

/-- `/^export\s+/i` stripping followed by `.trim()`. -/
def stripExportPrefix (s : String) : String :=
  if ((s.data.take 6).map Char.toLower == "export".data) &&
      (match s.data.drop 6 with
       | c :: _ => isJsWs c
       | [] => false) then
    jsTrim ⟨(s.data.drop 6).dropWhile isJsWs⟩
  else s

/-- `/^﻿/` removal. -/
def stripBom (s : String) : String :=
  match s.data with
  | c :: rest => if c.toNat = 65279 then ⟨rest⟩ else s
  | [] => s

/-- Parser state: the `entries` record, the `errors` array and the
duplicate-tracking `Map`. -/
structure PState where
  entries : List (String × String)
  errors : List ParseErrorRec
  dupMap : List (String × List Nat)

/-- Multiline accumulation: consume lines until the accumulated value,
trimmed at the end, ends with the opening quote character; returns the
accumulated value and the number of consumed lines. -/
def takeMultiline (quoteChar : Char) (acc : String) : List String → Option (String × Nat)
  | [] => none
  | l :: rest =>
    let acc' := acc ++ "\n" ++ l
    if jsEndsWith (jsTrimEnd acc') (String.singleton quoteChar) then some (acc', 1)
    else
      match takeMultiline quoteChar acc' rest with
      | some (v, n) => some (v, n + 1)
      | none => none

/-- Process one assignment once its `key` and raw `value` are known:
comment stripping, unquoting, duplicate tracking, optional expansion,
last-write-wins entry update. -/
def processEntry (o : REnvOpts) (st : PState) (key raw : String) (lineNo : Nat)
    (value : String) : PState :=
  let value1 := if o.stripInlineComments then stripInlineCommentSmart value
                else jsTrimEnd value
  let unquoted := unquoteAndUnescape value1
  let dupMap' := recordDup st.dupMap key lineNo
  if ¬ o.allowDuplicateKeys ∧ (st.entries.lookup key).isSome then
    { st with
      dupMap := dupMap'
      errors := st.errors ++
        [⟨lineNo, "INVALID_LINE", "Duplicate key \x27" ++ key ++ "\x27", raw⟩] }
  else
    let dict := st.entries.foldl (fun d kv => jsObjSet d kv.1 kv.2) o.expandFrom
    let finalValue := if o.expandVariables then expandVars unquoted dict else unquoted
    { st with dupMap := dupMap', entries := jsObjSet st.entries key finalValue }

/-- The per-line loop of `parseEnv`, with fuel: every iteration consumes at
least one line, so `lines.length` steps always suffice and the
fuel-exhausted base case is unreachable. -/
def envLoopF (o : REnvOpts) : Nat → List String → Nat → PState → PState
  | 0, _, _, st => st
  | _ + 1, [], _, st => st
  | fuel + 1, raw :: rest, lineNo, st =>
    let line0 := jsTrim raw
    if line0.data = [] then envLoopF o fuel rest (lineNo + 1) st
    else if jsStartsWith line0 "#" then envLoopF o fuel rest (lineNo + 1) st
    else
      let line := if lineNo = 1 then stripBom line0 else line0
      let working := if o.allowExportPrefix then stripExportPrefix line else line
      match jsIndexOfChar working '=' with
      | none =>
        envLoopF o fuel rest (lineNo + 1)
          { st with errors := st.errors ++ [⟨lineNo, "INVALID_LINE", "Missing \x27=\x27", raw⟩] }
      | some eq =>
        let key := jsTrim (jsSlice working 0 eq)
        let value0 := jsSliceFrom working (eq + 1)
        if key.data = [] then
          envLoopF o fuel rest (lineNo + 1)
            { st with errors := st.errors ++
                [⟨lineNo, "EMPTY_KEY", "Empty key before \x27=\x27", raw⟩] }
        else if ¬ o.allowEmptyValues ∧ (jsTrim value0).data = [] then
          envLoopF o fuel rest (lineNo + 1)
            { st with errors := st.errors ++
                [⟨lineNo, "INVALID_LINE", "Empty value not allowed", raw⟩] }
        else
          let trimmedV := jsTrim value0
          let startsWithQuote := jsStartsWith trimmedV "\"" || jsStartsWith trimmedV "'"
          if o.allowMultiline ∧ startsWithQuote then
            let quoteChar := match trimmedV.data with
              | c :: _ => c
              | [] => ' '
            let endsSameLine := 2 ≤ trimmedV.data.length &&
              jsEndsWith trimmedV (String.singleton quoteChar)
            if ¬ endsSameLine then
              match takeMultiline quoteChar value0 rest with
              | some (value', consumed) =>
                envLoopF o fuel (rest.drop consumed) (lineNo + consumed + 1)
                  (processEntry o st key raw lineNo value')
              | none =>
                { st with errors := st.errors ++
                    [⟨lineNo, "UNTERMINATED_QUOTE",
                      "Unterminated quoted value (multiline)", raw⟩] }
            else envLoopF o fuel rest (lineNo + 1) (processEntry o st key raw lineNo value0)
          else envLoopF o fuel rest (lineNo + 1) (processEntry o st key raw lineNo value0)

/-- `parseEnv` from packages/engine/src/env/parseEnv.ts. -/
def parseEnv (input : String) (opts : EnvOpts) : ParsedConfig :=
  let profile := opts.profile.getD "dotenv"
  let basic := profile = "basic"
  let o : REnvOpts :=
    { allowExportPrefix := opts.allowExportPrefix.getD true
      allowEmptyValues := opts.allowEmptyValues.getD true
      allowDuplicateKeys := opts.allowDuplicateKeys.getD true
      stripInlineComments := opts.stripInlineComments.getD true
      allowMultiline := opts.allowMultiline.getD (if basic then false else true)
      expandVariables := opts.expandVariables.getD (if basic then false else true)
      expandFrom := opts.expandFrom.getD [] }
  let text : String := ⟨stripCrLfL input.data⟩
  let lines := jsSplitLines text
  let final := envLoopF o lines.length lines 1 ⟨[], [], []⟩
  let duplicates := (final.dupMap.filter (fun kv => 1 < kv.2.length)).map
    (fun kv => (⟨kv.1, kv.2⟩ : DupRecord))
  let warnings :=
    (if 0 < duplicates.length then
      ["Found " ++ toString duplicates.length ++ " duplicate key(s). Last value wins."]
     else []) ++
    (if 0 < final.errors.length then
      ["Found " ++ toString final.errors.length ++ " parse error(s). Some lines were ignored."]
     else [])
  { format := "env", entries := final.entries, duplicates := duplicates,
    errors := final.errors, warnings := warnings,
    meta := ⟨lines.length, profile⟩ }

end engine

/-! ## JSON values and the lib flatteners (apps/web/src/app/lib/configdiff.ts) -/

/-! A parsed JSON/YAML value as produced by `JSON.parse` / `doc.toJS`.
Numbers carry their canonical JavaScript string rendering, and object
fields are listed in JavaScript `Object.keys` order.  `undef` models the
JavaScript `undefined` a YAML `toJS` call can produce.  Arrays and objects
carry their own list types so that all functions below stay executable. -/
mutual
inductive J where
  | null
  | undef
  | bool (b : Bool)
  | num (r : String)
  | str (s : String)
  | arr (items : JList)
  | obj (fields : JFields)

inductive JList where
  | nil
  | cons (head : J) (tail : JList)

inductive JFields where
  | nil
  | cons (key : String) (val : J) (tail : JFields)
end

deriving instance DecidableEq for J

def JList.toList : JList → List J
  | JList.nil => []
  | JList.cons x t => x :: t.toList

def JList.ofList : List J → JList
  | [] => JList.nil
  | x :: t => JList.cons x (JList.ofList t)

def JFields.toList : JFields → List (String × J)
  | JFields.nil => []
  | JFields.cons k v t => (k, v) :: t.toList

def JFields.ofList : List (String × J) → JFields
  | [] => JFields.nil
  | (k, v) :: t => JFields.cons k v (JFields.ofList t)

/-! A computable size measure on `J`, used as fuel for the recursions
below: every proper subvalue has a strictly smaller `jsize`. -/
mutual
def jsize : J → Nat
  | J.null => 1
  | J.undef => 1
  | J.bool _ => 1
  | J.num _ => 1
  | J.str _ => 1
  | J.arr xs => 1 + jsizeL xs
  | J.obj fs => 1 + jsizeF fs
def jsizeL : JList → Nat
  | JList.nil => 1
  | JList.cons x t => 1 + jsize x + jsizeL t
def jsizeF : JFields → Nat
  | JFields.nil => 1
  | JFields.cons _ v t => 1 + jsize v + jsizeF t
end

/-- JS record assignment for an arbitrary value type. -/
def jsRecSet {α : Type _} : List (String × α) → String → α → List (String × α)
  | [], k, v => [(k, v)]
  | (k', v') :: rest, k, v =>
    if k' = k then (k, v) :: rest else (k', v') :: jsRecSet rest k v

def hexDigit (n : Nat) : Char :=
  if n < 10 then Char.ofNat (48 + n) else Char.ofNat (87 + (n % 16))

def hex4 (n : Nat) : List Char :=
  [hexDigit ((n / 4096) % 16), hexDigit ((n / 256) % 16), hexDigit ((n / 16) % 16),
   hexDigit (n % 16)]

/-- The JSON string escaping `JSON.stringify` applies. -/
def jsonEscapeChar (c : Char) : List Char :=
  if c = '"' then ['\\', '"']
  else if c = '\\' then ['\\', '\\']
  else if c = '\n' then ['\\', 'n']
  else if c = '\r' then ['\\', 'r']
  else if c = '\t' then ['\\', 't']
  else if c.toNat = 8 then ['\\', 'b']
  else if c.toNat = 12 then ['\\', 'f']
  else if c.toNat < 32 then '\\' :: 'u' :: hex4 c.toNat
  else [c]

def jsonEscape (s : String) : String := ⟨s.data.flatMap jsonEscapeChar⟩

def joinComma : List String → String
  | [] => ""
  | [x] => x
  | x :: rest => x ++ "," ++ joinComma rest

/-- `JSON.stringify`, with fuel: every recursive call descends into a
strict subvalue, whose `jsize` is strictly smaller, so `jsize v` steps
always suffice and the fuel-exhausted base case is unreachable. -/
def jsonStringifyF : Nat → J → String
  | 0, _ => ""
  | _ + 1, J.null => "null"
  | _ + 1, J.undef => "undefined"
  | _ + 1, J.bool b => if b then "true" else "false"
  | _ + 1, J.num r => r
  | _ + 1, J.str s => "\"" ++ jsonEscape s ++ "\""
  | fuel + 1, J.arr xs => "[" ++ joinComma (xs.toList.map (jsonStringifyF fuel)) ++ "]"
  | fuel + 1, J.obj fs =>
    "\x7b" ++
      joinComma (fs.toList.map
        (fun kv => "\"" ++ jsonEscape kv.1 ++ "\":" ++ jsonStringifyF fuel kv.2)) ++
      "\x7d"

def jsonStringify (v : J) : String := jsonStringifyF (jsize v) v

/-- JS `String(v)` on parsed JSON values. -/
def jsToString : J → String
  | J.null => "null"
  | J.undef => "undefined"
  | J.bool b => if b then "true" else "false"
  | J.num r => r
  | J.str s => s
  | J.arr _ => ""
  | J.obj _ => "[object Object]"

namespace cdjson

inductive IssueKind where
  | error
  | warning
deriving DecidableEq, Repr

structure ParseIssue where
  line : Nat
  kind : IssueKind
  message : String
deriving DecidableEq, Repr

structure ParseMeta where
  duplicates : List (String × Nat)
  issues : List ParseIssue
deriving DecidableEq, Repr

structure ParsedKeyValues where
  values : List (String × String)
  meta : ParseMeta
deriving DecidableEq, Repr

inductive JsonArrayMode where
  | index
  | ignore
  | stringify
deriving DecidableEq, Repr

structure JsonParseOptions where
  arrayMode : Option JsonArrayMode := none
  maxKeys : Option Nat := none

/-- `valueToStableString` from configdiff.ts (parseYaml.ts carries a
character-identical copy). -/
def valueToStableString : J → String
  | J.null => "null"
  | J.undef => "undefined"
  | J.str s => s
  | J.num r => r
  | J.bool b => if b then "true" else "false"
  | J.arr xs => jsonStringify (J.arr xs)
  | J.obj fs => jsonStringify (J.obj fs)

def pathOr (path : String) : String := if path = "" then "$" else path

/-- The emission sequence of `flattenJson` from configdiff.ts: the
`(path, node)` pairs passed to `emit`, in call order.  Object keys are
visited in `Object.keys` source order (no sorting).  Fuel as in
`jsonStringifyF`. -/
def flattenSeqF (arrayMode : JsonArrayMode) : Nat → J → String → List (String × J)
  | 0, _, _ => []
  | _ + 1, J.null, path => [(pathOr path, J.null)]
  | _ + 1, J.undef, path => [(pathOr path, J.undef)]
  | _ + 1, J.bool b, path => [(pathOr path, J.bool b)]
  | _ + 1, J.num r, path => [(pathOr path, J.num r)]
  | _ + 1, J.str s, path => [(pathOr path, J.str s)]
  | fuel + 1, J.arr xs, path =>
    match arrayMode with
    | JsonArrayMode.ignore => []
    | JsonArrayMode.stringify => [(pathOr path, J.arr xs)]
    | JsonArrayMode.index =>
      (xs.toList.enum).flatMap (fun ix =>
        flattenSeqF arrayMode fuel ix.2
          (if path ≠ "" then path ++ "[" ++ toString ix.1 ++ "]"
           else "$[" ++ toString ix.1 ++ "]"))
  | fuel + 1, J.obj fs, path =>
    match fs.toList with
    | [] => [(pathOr path, J.obj JFields.nil)]
    | _ =>
      fs.toList.flatMap (fun kv =>
        flattenSeqF arrayMode fuel kv.2 (if path ≠ "" then path ++ "." ++ kv.1 else kv.1))

def flattenSeq (arrayMode : JsonArrayMode) (v : J) (path : String) : List (String × J) :=
  flattenSeqF arrayMode (jsize v) v path

/-- The `emit` body folded over an emission sequence: stable-stringify the
value, bump the duplicate counter when the key is already present, then
last-write-wins store. -/
def emitFold : List (String × String) → List (String × Nat) → List (String × J) →
    List (String × String) × List (String × Nat)
  | values, dups, [] => (values, dups)
  | values, dups, (k, v) :: rest =>
    let valStr := valueToStableString v
    let dups' := if (values.lookup k).isSome then
        jsRecSet dups k (((dups.lookup k).getD 1) + 1)
      else dups
    emitFold (jsRecSet values k valStr) dups' rest

/-- The key cap `Math.max(1, Math.min(opts.maxKeys ?? 200_000, 1_000_000))`
shared by parseJsonToFlatMap and parseYamlToFlatMap. -/
def maxKeysOf (opts : JsonParseOptions) : Nat :=
  max 1 (min (opts.maxKeys.getD 200000) 1000000)

/-- The root-primitive test `parsed === null || typeof parsed !== "object"`. -/
def rootPrimitive : J → Bool
  | J.null => true
  | J.undef => true
  | J.bool _ => true
  | J.num _ => true
  | J.str _ => true
  | _ => false

/-- `parseJsonToFlatMap` from configdiff.ts, with the external `JSON.parse`
call factored out as an `Except` parameter (`.error e` models a thrown
syntax error with message `e`). -/
def parseJsonToFlatMap (parsed : Except String J) (opts : JsonParseOptions) :
    ParsedKeyValues :=
  let arrayMode := opts.arrayMode.getD JsonArrayMode.index
  let maxKeys := maxKeysOf opts
  match parsed with
  | Except.error e =>
    { values := []
      meta := { duplicates := []
                issues := [⟨1, IssueKind.error,
                  if e ≠ "" then "Invalid JSON: " ++ e else "Invalid JSON."⟩] } }
  | Except.ok p =>
    match p with
    | J.null => { values := [("$", jsToString J.null)], meta := { duplicates := [], issues := [] } }
    | J.undef => { values := [("$", jsToString J.undef)], meta := { duplicates := [], issues := [] } }
    | J.bool b => { values := [("$", jsToString (J.bool b))], meta := { duplicates := [], issues := [] } }
    | J.num r => { values := [("$", jsToString (J.num r))], meta := { duplicates := [], issues := [] } }
    | J.str s => { values := [("$", jsToString (J.str s))], meta := { duplicates := [], issues := [] } }
    | node =>
      let seq := flattenSeq arrayMode node ""
      if maxKeys < seq.length then
        let built := emitFold [] [] (seq.take maxKeys)
        { values := built.1
          meta := { duplicates := built.2
                    issues := [⟨1, IssueKind.error,
                      "JSON too large (>" ++ toString maxKeys ++ " flattened keys)."⟩] } }
      else
        let built := emitFold [] [] seq
        { values := built.1, meta := { duplicates := built.2, issues := [] } }

/-- The worker parses the two sides by two independent calls
(compare.worker.ts, `parseByFormat` applied to each side). -/
def parseSides (l r : Except String J) (opts : JsonParseOptions) :
    ParsedKeyValues × ParsedKeyValues :=
  (parseJsonToFlatMap l opts, parseJsonToFlatMap r opts)

end cdjson

/-! ## YAML parser (apps/web/src/app/lib/parseYaml.ts) -/

namespace pyaml

/-! A node of the `yaml` library document AST: scalars carry the
stringified `.value` (`none` for a null value) and the start offset of
`.range`; mappings carry key/value pairs. -/
mutual
inductive YNode where
  | scalar (value : Option String) (range : Option Nat)
  | seq (items : YList) (range : Option Nat)
  | map (items : YPairs) (range : Option Nat)

inductive YList where
  | nil
  | cons (head : YNode) (tail : YList)

inductive YPairs where
  | nil
  | cons (key : YNode) (val : YNode) (tail : YPairs)
end

def YList.toList : YList → List YNode
  | YList.nil => []
  | YList.cons x t => x :: t.toList

def YList.ofList : List YNode → YList
  | [] => YList.nil
  | x :: t => YList.cons x (YList.ofList t)

def YPairs.toList : YPairs → List (YNode × YNode)
  | YPairs.nil => []
  | YPairs.cons k v t => (k, v) :: t.toList

def YPairs.ofList : List (YNode × YNode) → YPairs
  | [] => YPairs.nil
  | (k, v) :: t => YPairs.cons k v (YPairs.ofList t)

/-! Computable size measure on `YNode`, used as recursion fuel. -/
mutual
def ysize : YNode → Nat
  | YNode.scalar _ _ => 1
  | YNode.seq xs _ => 1 + ysizeL xs
  | YNode.map ps _ => 1 + ysizeP ps
def ysizeL : YList → Nat
  | YList.nil => 1
  | YList.cons x t => 1 + ysize x + ysizeL t
def ysizeP : YPairs → Nat
  | YPairs.nil => 1
  | YPairs.cons k v t => 1 + ysize k + ysize v + ysizeP t
end

/-- The `yaml` library document as consumed by `parseYamlToFlatMap`: its
`errors` array, its AST `contents`, and the result of
`toJS({ merge: true })`; a thrown `toJS` is `.error`. -/
structure YDoc where
  errors : List String
  contents : Option YNode
  toJS : Except String J

structure ParseMeta where
  duplicates : List (String × Nat)
  duplicateLines : List (String × Nat)
  issues : List cdjson.ParseIssue
deriving DecidableEq, Repr

structure ParsedKeyValues where
  values : List (String × String)
  meta : ParseMeta
deriving DecidableEq, Repr

/-- `buildLineStarts`: character offsets at which each line begins. -/
def buildLineStartsAux : Nat → List Char → List Nat
  | _, [] => []
  | i, c :: rest =>
    if c = '\n' then (i + 1) :: buildLineStartsAux (i + 1) rest
    else buildLineStartsAux (i + 1) rest

def buildLineStarts (text : String) : List Nat := 0 :: buildLineStartsAux 0 text.data

/-- The binary-search loop of `offsetToLine`; the interval shrinks at every
step, so `lineStarts.length + 2` iterations always suffice. -/
def offsetToLineGo (lineStarts : List Nat) (offset : Int) : Nat → Int → Int → Int
  | 0, _, hi => hi
  | fuel + 1, lo, hi =>
    if lo ≤ hi then
      let mid := (lo + hi) / 2
      let v : Int := (lineStarts.getD mid.toNat 0 : Nat)
      if v ≤ offset then offsetToLineGo lineStarts offset fuel (mid + 1) hi
      else offsetToLineGo lineStarts offset fuel lo (mid - 1)
    else hi

def offsetToLine (offset : Int) (lineStarts : List Nat) : Nat :=
  if offset ≤ 0 then 1
  else
    let hi := offsetToLineGo lineStarts offset (lineStarts.length + 2) 0
      ((lineStarts.length : Int) - 1)
    max 1 (hi + 1).toNat

def keyNodeToString : YNode → String
  | YNode.scalar (some s) _ => s
  | _ => "[object Object]"

def inferYamlNodeLine (node : YNode) (lineStarts : List Nat) : Option Nat :=
  match node with
  | YNode.scalar _ (some start) => some (offsetToLine (start : Int) lineStarts)
  | YNode.seq _ (some start) => some (offsetToLine (start : Int) lineStarts)
  | YNode.map _ (some start) => some (offsetToLine (start : Int) lineStarts)
  | _ => none

/-- The mutable outputs of `collectDuplicateKeyPaths`. -/
structure DupState where
  out : List (String × Nat)
  outLines : List (String × Nat)
  issues : List cdjson.ParseIssue

/-- `collectDuplicateKeyPaths`, with fuel (as in `jsonStringifyF`, `ysize`
of the node always suffices).  Walks the AST recording, per mapping, every
key string seen more than once, with a best-effort line number, skipping
empty keys and resolving `<<` merge keys into the same path. -/
def collectDupF (lineStarts : List Nat) : Nat → Option YNode → String → DupState → DupState
  | 0, _, _, st => st
  | _ + 1, none, _, st => st
  | _ + 1, some (YNode.scalar _ _), _, st => st
  | fuel + 1, some (YNode.seq items _), path, st =>
    (items.toList.enum).foldl
      (fun st ix =>
        collectDupF lineStarts fuel (some ix.2)
          (if path ≠ "" then path ++ "[" ++ toString ix.1 ++ "]"
           else "$[" ++ toString ix.1 ++ "]") st)
      st
  | fuel + 1, some (YNode.map items _), path, st =>
    (items.toList.foldl
      (fun acc pair =>
        let seen := acc.1
        let st := acc.2
        let keyStr := keyNodeToString pair.1
        if keyStr = "" then (seen, st)
        else if keyStr = "<<" then
          (seen, collectDupF lineStarts fuel (some pair.2) path st)
        else
          let next := ((seen.lookup keyStr).getD 0) + 1
          let seen' := jsRecSet seen keyStr next
          let keyPath := if path ≠ "" then path ++ "." ++ keyStr else keyStr
          let st' :=
            if 2 ≤ next then
              let line := (inferYamlNodeLine pair.1 lineStarts).getD 1
              let out' := jsRecSet st.out keyPath (max ((st.out.lookup keyPath).getD 0) next)
              let outLines' :=
                if (st.outLines.lookup keyPath).isNone ∨
                    line < (st.outLines.lookup keyPath).getD 0 then
                  jsRecSet st.outLines keyPath line
                else st.outLines
              let issues' :=
                if st.issues.any (fun it =>
                    jsIncludes it.message ("Duplicate key \x27" ++ keyPath ++ "\x27")) then
                  st.issues
                else
                  st.issues ++ [⟨line, cdjson.IssueKind.warning,
                    "Duplicate key \x27" ++ keyPath ++ "\x27 line at " ++ toString line⟩]
              { out := out', outLines := outLines', issues := issues' }
            else st
          (seen', collectDupF lineStarts fuel (some pair.2) keyPath st'))
      (([] : List (String × Nat)), st)).2

/-- `flatten` from parseYaml.ts (character-identical to the configdiff.ts
`flattenJson` embedded as `cdjson.flattenSeqF`). -/
def flatten (arrayMode : cdjson.JsonArrayMode) (v : J) (path : String) : List (String × J) :=
  cdjson.flattenSeq arrayMode v path

/-- Store loop for the YAML emitter: `values[k] = valueToStableString(v)`
with no duplicate tracking. -/
def storeAll (values : List (String × String)) : List (String × J) → List (String × String)
  | [] => values
  | (k, v) :: rest => storeAll (jsRecSet values k (cdjson.valueToStableString v)) rest

/-- `parseYamlToFlatMap` from parseYaml.ts, with the external
`YAML.parseDocument` call factored out as an `Except String YDoc`
parameter (`.error e` models a thrown parse exception with message `e`). -/
def parseYamlToFlatMap (text : String) (outcome : Except String YDoc)
    (opts : cdjson.JsonParseOptions) : ParsedKeyValues :=
  let arrayMode := opts.arrayMode.getD cdjson.JsonArrayMode.index
  let maxKeys := cdjson.maxKeysOf opts
  match outcome with
  | Except.error e =>
    { values := []
      meta := { duplicates := [], duplicateLines := []
                issues := [⟨1, cdjson.IssueKind.error,
                  if e ≠ "" then "Invalid YAML: " ++ e else "Invalid YAML."⟩] } }
  | Except.ok doc =>
    match doc.errors with
    | first :: _ =>
      { values := []
        meta := { duplicates := [], duplicateLines := []
                  issues := [⟨1, cdjson.IssueKind.error,
                    if first ≠ "" then "Invalid YAML: " ++ first else "Invalid YAML."⟩] } }
    | [] =>
      let lineStarts := buildLineStarts text
      let dupSt := collectDupF lineStarts
        (match doc.contents with
         | some n => ysize n + 1
         | none => 1) doc.contents "" ⟨[], [], []⟩
      match doc.toJS with
      | Except.error e =>
        { values := []
          meta := { duplicates := dupSt.out, duplicateLines := dupSt.outLines
                    issues := dupSt.issues ++ [⟨1, cdjson.IssueKind.error,
                      if e ≠ "" then "Invalid YAML: " ++ e else "Invalid YAML."⟩] } }
      | Except.ok parsed =>
        match parsed with
        | J.null =>
          { values := [("$", cdjson.valueToStableString J.null)]
            meta := { duplicates := dupSt.out, duplicateLines := dupSt.outLines
                      issues := dupSt.issues } }
        | J.undef =>
          { values := [("$", cdjson.valueToStableString J.undef)]
            meta := { duplicates := dupSt.out, duplicateLines := dupSt.outLines
                      issues := dupSt.issues } }
        | J.bool b =>
          { values := [("$", cdjson.valueToStableString (J.bool b))]
            meta := { duplicates := dupSt.out, duplicateLines := dupSt.outLines
                      issues := dupSt.issues } }
        | J.num r =>
          { values := [("$", cdjson.valueToStableString (J.num r))]
            meta := { duplicates := dupSt.out, duplicateLines := dupSt.outLines
                      issues := dupSt.issues } }
        | J.str s =>
          { values := [("$", cdjson.valueToStableString (J.str s))]
            meta := { duplicates := dupSt.out, duplicateLines := dupSt.outLines
                      issues := dupSt.issues } }
        | node =>
          let seq := flatten arrayMode node ""
          if maxKeys < seq.length then
            { values := storeAll [] (seq.take maxKeys)
              meta := { duplicates := dupSt.out, duplicateLines := dupSt.outLines
                        issues := dupSt.issues ++ [⟨1, cdjson.IssueKind.error,
                          "YAML too large (>" ++ toString maxKeys ++ " flattened keys)."⟩] } }
          else
            { values := storeAll [] seq
              meta := { duplicates := dupSt.out, duplicateLines := dupSt.outLines
                        issues := dupSt.issues } }

end pyaml

/-! ## Worker flattener (apps/web/src/app/compare.worker.ts, `flattenJson`) -/

namespace worker

/-- Sort key of the default `Array.prototype.sort` string comparator:
code-unit lexicographic order (modelled on code points). -/
def ordKey (s : String) : List Nat := s.data.map Char.toNat

/-- `a` sorts no later than `b` under the default JS string sort. -/
def ordinalLe (a b : String) : Prop := ordKey a ≤ ordKey b

instance : DecidableRel ordinalLe :=
  fun a b => inferInstanceAs (Decidable (ordKey a ≤ ordKey b))

instance : IsTotal String ordinalLe := ⟨fun a b => le_total (ordKey a) (ordKey b)⟩

instance : IsTrans String ordinalLe := ⟨fun _ _ _ h1 h2 => le_trans h1 h2⟩

instance : IsAntisymm String ordinalLe :=
  ⟨fun a b h1 h2 => by
    have h := le_antisymm h1 h2
    refine String.ext (List.map_injective_iff.mpr (fun x y hxy => ?_) h)
    exact Char.ext (UInt32.toNat.inj hxy)⟩

inductive WArrayMode where
  | ordered
  | setScalars
deriving DecidableEq, Repr

/-- `isScalar` from compare.worker.ts:
`x === null || ["string", "number", "boolean"].includes(typeof x)`. -/
def isScalar : J → Bool
  | J.null => true
  | J.str _ => true
  | J.num _ => true
  | J.bool _ => true
  | _ => false

/-- The scalar stringification used by the worker `visit`:
`node === null ? "null" : typeof node === "string" ? node : JSON.stringify(node)`. -/
def scalarStr : J → String
  | J.null => "null"
  | J.str s => s
  | v => jsonStringify v

def joinWith (sep : String) : List String → String
  | [] => ""
  | [x] => x
  | x :: rest => x ++ sep ++ joinWith sep rest

/-- The emission sequence of the worker `flattenJson`/`visit`: the pairs
passed to `out.set`, in call order.  Object keys are visited in
`Object.keys(node).sort()` order.  Fuel-based recursion as in
`jsonStringifyF`: `jsize` of the node always suffices. -/
def wflattenF (arrayMode : WArrayMode) : Nat → J → String → List (String × String)
  | 0, _, _ => []
  | _ + 1, J.null, path => [(cdjson.pathOr path, "null")]
  | _ + 1, J.str s, path => [(cdjson.pathOr path, s)]
  | _ + 1, J.num r, path => [(cdjson.pathOr path, r)]
  | _ + 1, J.bool b, path => [(cdjson.pathOr path, if b then "true" else "false")]
  | fuel + 1, J.arr xs, path =>
    match arrayMode with
    | WArrayMode.setScalars =>
      if xs.toList.all isScalar then
        [(cdjson.pathOr path,
          joinWith "," (List.insertionSort ordinalLe (xs.toList.map scalarStr)))]
      else
        (xs.toList.enum).flatMap (fun ix =>
          wflattenF arrayMode fuel ix.2 (path ++ "[" ++ toString ix.1 ++ "]"))
    | WArrayMode.ordered =>
      (xs.toList.enum).flatMap (fun ix =>
        wflattenF arrayMode fuel ix.2 (path ++ "[" ++ toString ix.1 ++ "]"))
  | fuel + 1, J.obj fs, path =>
    (List.insertionSort ordinalLe (fs.toList.map Prod.fst)).flatMap
      (fun k =>
        wflattenF arrayMode fuel ((fs.toList.lookup k).getD J.undef)
          (if path ≠ "" then path ++ "." ++ k else k))
  | _ + 1, J.undef, path => [(cdjson.pathOr path, "undefined")]

/-- `flattenJson` from compare.worker.ts (default array mode `"ordered"`),
as its emission sequence; the resulting `Map` is this sequence folded with
insert-or-overwrite-in-place. -/
def flattenJson (arrayMode : WArrayMode) (v : J) : List (String × String) :=
  wflattenF arrayMode (jsize v) v ""

def nodupKeys : List String → Bool
  | [] => true
  | x :: t => (!t.contains x) && nodupKeys t

/-- Structural identity of two parsed documents up to the order of object
keys (the relation named by the spec: "structurally identical but list the
same object keys in different orders").  This definition follows the
spec's words, not any source function: scalars must be equal, arrays must
match pointwise in order, and objects must have the same (duplicate-free)
key set with structurally identical values per key. -/
def jsonStructEqF : Nat → J → J → Bool
  | 0, _, _ => false
  | _ + 1, J.null, J.null => true
  | _ + 1, J.undef, J.undef => true
  | _ + 1, J.bool a, J.bool b => a == b
  | _ + 1, J.num a, J.num b => a == b
  | _ + 1, J.str a, J.str b => a == b
  | fuel + 1, J.arr xs, J.arr ys =>
    xs.toList.length == ys.toList.length &&
      (xs.toList.zip ys.toList).all (fun p => jsonStructEqF fuel p.1 p.2)
  | fuel + 1, J.obj fs, J.obj gs =>
    nodupKeys (fs.toList.map Prod.fst) && nodupKeys (gs.toList.map Prod.fst) &&
      fs.toList.length == gs.toList.length &&
      (fs.toList.map Prod.fst).all (fun k => (gs.toList.map Prod.fst).contains k) &&
      fs.toList.all (fun kv =>
        match gs.toList.lookup kv.1 with
        | some w => jsonStructEqF fuel kv.2 w
        | none => false)
  | _ + 1, _, _ => false

def jsonStructEq (a b : J) : Bool := jsonStructEqF (jsize a + jsize b) a b

end worker

/-! ## Redaction (packages/engine/dist/core/redact.js) -/

namespace redact

/-- The `DEFAULTS` option record; `redactValue`'s `{ ...DEFAULTS, ...opts }`
merge is modelled by passing the already-merged record. -/
structure RedactOptions where
  maskChar : String := "•"
  revealLast : Nat := 4
  revealFirst : Nat := 2
  minMaskLength : Nat := 8
deriving DecidableEq, Repr

def DEFAULTS : RedactOptions := {}

structure Masked where
  originalLength : Nat
  redacted : String
deriving DecidableEq, Repr

/-- `basicMask` from redact.js.  String lengths are modelled as code-point
counts (`value.length` in JS counts UTF-16 units; they agree on BMP text). -/
def basicMask (value : String) (opts : RedactOptions) : Masked :=
  let len := value.length
  if len ≤ opts.minMaskLength then
    { originalLength := len, redacted := jsRepeat opts.maskChar (max len 4) }
  else
    let first := jsSlice value 0 (min opts.revealFirst len)
    let last := jsSliceFrom value (len - opts.revealLast)
    let maskLen := max 4 (len - first.length - last.length)
    { originalLength := len
      redacted := first ++ jsRepeat opts.maskChar maskLen ++ last }

def isSchemeChar (c : Char) : Bool :=
  c.isAlpha || c.isDigit || c = '+' || c = '-' || c = '.'

/-- The test `/^[a-zA-Z][a-zA-Z0-9+\-.]*:\/\//.test(value)`: a letter, a
run of scheme characters, then `://`.  The character class excludes `:`,
so the greedy run is exactly the maximal scheme-character span. -/
def schemeTest (value : String) : Bool :=
  match value.data with
  | [] => false
  | c :: rest =>
    c.isAlpha &&
      (match rest.dropWhile isSchemeChar with
       | ':' :: '/' :: '/' :: _ => true
       | _ => false)

/-- `looksLikeUrl` from redact.js. -/
def looksLikeUrl (value : String) : Bool := schemeTest value || jsIncludes value "://"

/-- The components of a parsed `new URL(value)`, as read by `redactUrl`:
`host` includes the port, `protocol` includes the trailing `:`. -/
structure UrlParts where
  protocol : String
  host : String
  pathname : String
  username : String
  password : String
  search : String
  hash : String
deriving DecidableEq, Repr

/-- Index of the first occurrence of `sub` in a character list, as JS
`String.prototype.indexOf` (`none` for JS `-1`). -/
def indexOfAux (sub : List Char) : Nat → List Char → Option Nat
  | i, [] => if sub.isEmpty then some i else none
  | i, c :: rest =>
    if (c :: rest).take sub.length = sub then some i
    else indexOfAux sub (i + 1) rest

/-- `redactUrl` from redact.js, with the external `new URL(value)` call
factored out as the `urlParse` parameter (`none` models a throw). -/
def redactUrl (value : String) (opts : RedactOptions)
    (urlParse : String → Option UrlParts) : Masked :=
  match urlParse value with
  | some u =>
    let path := if u.pathname ≠ "" ∧ u.pathname ≠ "/" then "/…" else ""
    let hasCreds := u.username ≠ "" ∨ u.password ≠ ""
    let creds := if hasCreds then jsRepeat opts.maskChar 6 ++ "@" else ""
    let qh := if u.search ≠ "" ∨ u.hash ≠ "" then "?…" else ""
    { originalLength := value.length
      redacted := u.protocol ++ "//" ++ creds ++ u.host ++ path ++ qh }
  | none =>
    match indexOfAux ("://".data) 0 value.data with
    | some idx =>
      if 0 < idx then
        let pre := jsSlice value 0 (idx + 3)
        let rest := jsSliceFrom value (idx + 3)
        { originalLength := value.length
          redacted := pre ++ (basicMask rest { opts with revealFirst := 0 }).redacted }
      else basicMask value opts
    | none => basicMask value opts

/-- `redactValue` from redact.js (options already merged with `DEFAULTS`). -/
def redactValue (value : String) (opts : RedactOptions)
    (urlParse : String → Option UrlParts) : Masked :=
  if looksLikeUrl value then redactUrl value opts urlParse
  else basicMask value opts

end redact

/-! ## Line resolver (src/unnamed/part_006, `extractLineStart`) -/

namespace lineres

/-- JS `\w` (ASCII word character). -/
def isWordChar (c : Char) : Bool := c.isAlphanum || c = '_'

/-- JS `\s`, restricted to its ASCII members (space, tab, LF, VT, FF, CR). -/
def isSpaceChar (c : Char) : Bool :=
  c = ' ' || c = '\t' || c = '\n' || c = '\r' || c.toNat = 11 || c.toNat = 12

def natOfDigits (ds : List Char) : Nat :=
  ds.foldl (fun a c => 10 * a + (c.toNat - 48)) 0

/-- Strip a literal pattern (already lower-cased) from the head of the
(already lower-cased) input. -/
def stripP : List Char → List Char → Option (List Char)
  | [], l => some l
  | _ :: _, [] => none
  | p :: ps, c :: cs => if c = p then stripP ps cs else none

/-- A maximal digit run followed by a word boundary, as `(\d+)\b`: any
shorter run would be followed by a digit, so only the maximal run can
satisfy the boundary. -/
def digitsBdry (l : List Char) : Option Nat :=
  let ds := l.takeWhile Char.isDigit
  if ds.isEmpty then none
  else
    match l.dropWhile Char.isDigit with
    | [] => some (natOfDigits ds)
    | c :: _ => if isWordChar c then none else some (natOfDigits ds)

/-- A maximal digit run with no trailing boundary, as `(\d+)`. -/
def digitsStar (l : List Char) : Option Nat :=
  let ds := l.takeWhile Char.isDigit
  if ds.isEmpty then none else some (natOfDigits ds)

def isSepChar (c : Char) : Bool := c = ':' || isSpaceChar c

/-- Matching `(?:left|right)\s*[:\-]?\s*line\s*[:\s]+(\d+)\b` at the
current position (the leading `\b` is handled by the scanner).
`\s*[:\s]+` is equivalent to one-or-more separator characters. -/
def sideHere (l : List Char) : Option Nat :=
  match (match stripP "left".data l with
         | some r => some r
         | none => stripP "right".data l) with
  | none => none
  | some r1 =>
    let r2 := r1.dropWhile isSpaceChar
    let r3 := match r2 with
      | c :: t => if c = ':' ∨ c = '-' then t else r2
      | [] => r2
    let r4 := r3.dropWhile isSpaceChar
    match stripP "line".data r4 with
    | none => none
    | some r5 =>
      if (r5.takeWhile isSepChar).isEmpty then none
      else digitsBdry (r5.dropWhile isSepChar)

/-- Matching `at\s+line\s+(\d+)\b` at the current position. -/
def atHere (l : List Char) : Option Nat :=
  match stripP "at".data l with
  | none => none
  | some r1 =>
    if (r1.takeWhile isSpaceChar).isEmpty then none
    else
      match stripP "line".data (r1.dropWhile isSpaceChar) with
      | none => none
      | some r2 =>
        if (r2.takeWhile isSpaceChar).isEmpty then none
        else digitsBdry (r2.dropWhile isSpaceChar)

/-- Matching `[lr](\d+)\b` at the current position. -/
def lrHere (l : List Char) : Option Nat :=
  match l with
  | [] => none
  | c :: rest => if c = 'l' ∨ c = 'r' then digitsBdry rest else none

/-- Leftmost-match scan for a pattern starting with a word character and
preceded by `\b`: try each position whose previous character is not a word
character, left to right. -/
def scanBdry (matchHere : List Char → Option Nat) :
    Option Char → List Char → Option Nat
  | _, [] => none
  | prev, c :: rest =>
    let bdryOk := match prev with
      | none => true
      | some p => !isWordChar p
    match (if bdryOk then matchHere (c :: rest) else none) with
    | some n => some n
    | none => scanBdry matchHere (some c) rest

/-- Matching `line\s*[:\s]+(\d+)` (no boundaries) at the current position,
returning the number and the remaining input after the match. -/
def genHere (l : List Char) : Option (Nat × List Char) :=
  match stripP "line".data l with
  | none => none
  | some r1 =>
    if (r1.takeWhile isSepChar).isEmpty then none
    else
      let r2 := r1.dropWhile isSepChar
      let ds := r2.takeWhile Char.isDigit
      if ds.isEmpty then none
      else some (natOfDigits ds, r2.dropWhile Char.isDigit)

/-- `matchAll` for the global pattern above: all non-overlapping matches,
left to right.  Each match consumes at least one character, so fuel
`l.length` always suffices. -/
def genCollectF : Nat → List Char → List Nat
  | 0, _ => []
  | _ + 1, [] => []
  | fuel + 1, c :: rest =>
    match genHere (c :: rest) with
    | some nc => nc.1 :: genCollectF fuel nc.2
    | none => genCollectF fuel rest

/-- The `tryParse` closure of `extractLineStart`: in order, the side
pattern, the `at line N` pattern, the last `line N` match, and the `L`/`R`
pattern, each accepted only when its number is positive.  Matching is
case-insensitive, modelled by lower-casing the input first. -/
def tryParse (s : String) : Option Nat :=
  if s = "" then none
  else
    let l := s.data.map Char.toLower
    let pos : Option Nat → Option Nat := fun r =>
      match r with
      | some n => if 0 < n then some n else none
      | none => none
    match pos (scanBdry sideHere none l) with
    | some n => some n
    | none =>
      match pos (scanBdry atHere none l) with
      | some n => some n
      | none =>
        match pos (genCollectF l.length l).getLast? with
        | some n => some n
        | none => pos (scanBdry lrHere none l)

/-- The fields of an issue/finding record read by `extractLineStart`; JS
`undefined` is `none`, and the numeric fields hold JS numbers (modelled as
integers). -/
structure Issue where
  line : Option Int := none
  lineStart : Option Int := none
  locLine : Option Int := none
  locationLine : Option Int := none
  key : Option String := none
  id : Option String := none
  path : Option String := none
  name : Option String := none
  message : Option String := none
  error : Option String := none
  details : Option String := none
  msg : Option String := none
  text : Option String := none

/-- The `direct` chain: the first of `issue.line`, `issue.__lineStart`,
`issue.loc.line`, `issue.location.line` that is a number. -/
def directOf (i : Issue) : Option Int :=
  i.line <|> i.lineStart <|> i.locLine <|> i.locationLine

/-- `String(issue.key ?? issue.id ?? issue.path ?? issue.name ?? "")`. -/
def keyishOf (i : Issue) : String := (i.key <|> i.id <|> i.path <|> i.name).getD ""

/-- `String(issue.message ?? issue.error ?? issue.details ?? issue.msg ?? issue.text ?? "")`. -/
def messageOf (i : Issue) : String :=
  (i.message <|> i.error <|> i.details <|> i.msg <|> i.text).getD ""

def fromText (i : Issue) : Option Int :=
  match tryParse (keyishOf i) with
  | some n => some (n : Int)
  | none =>
    match tryParse (messageOf i) with
    | some n => some (n : Int)
    | none => none

/-- `extractLineStart` from part_006: the attached numeric line if positive,
else the key-ish field, else the message-ish field, else `none`. -/
def extractLineStart (i : Issue) : Option Int :=
  match directOf i with
  | some d => if 0 < d then some d else fromText i
  | none => fromText i

end lineres

/-! ### Diff lemmas -/

theorem engine.jsSetDedupAux_mem (l : List String) :
    ∀ (seen : List String) (k : String),
      k ∈ engine.jsSetDedupAux seen l ↔ k ∈ l ∧ k ∉ seen := by
  induction l with
  | nil => intro seen k; simp [engine.jsSetDedupAux]
  | cons a rest ih =>
    intro seen k
    by_cases ha : a ∈ seen <;>
      [simp only [engine.jsSetDedupAux, if_pos ha, ih, List.mem_cons];
       simp only [engine.jsSetDedupAux, if_neg ha, ih, List.mem_cons]] <;>
      by_cases hka : k = a <;> subst_eqs <;> tauto

theorem engine.jsSetDedupAux_nodup (l : List String) :
    ∀ seen : List String, (engine.jsSetDedupAux seen l).Nodup := by
  induction l with
  | nil => intro seen; simp [engine.jsSetDedupAux]
  | cons a rest ih =>
    intro seen
    by_cases ha : a ∈ seen
    · simpa [engine.jsSetDedupAux, if_pos ha] using ih seen
    · simp only [engine.jsSetDedupAux, if_neg ha]
      refine List.nodup_cons.mpr ⟨?_, ih (a :: seen)⟩
      intro hc
      exact ((engine.jsSetDedupAux_mem rest (a :: seen) a).mp hc).2 (List.mem_cons_self a seen)

theorem engine.jsSetDedup_mem (l : List String) (k : String) :
    k ∈ engine.jsSetDedup l ↔ k ∈ l := by
  simp [engine.jsSetDedup, engine.jsSetDedupAux_mem]

theorem engine.jsSetDedup_nodup (l : List String) : (engine.jsSetDedup l).Nodup :=
  engine.jsSetDedupAux_nodup l []

theorem engine.classify_cons (left right : List (String × String)) (a : String)
    (rest : List String) (k : String) :
    engine.keyCount (engine.classify left right (a :: rest)) k =
      (if k = a then 1 else 0) + engine.keyCount (engine.classify left right rest) k := by
  by_cases hk : k = a
  · subst hk
    simp only [engine.classify]
    split_ifs <;> simp [engine.keyCount, List.count_cons] <;> try omega
  · simp only [engine.classify]
    split_ifs <;> simp [engine.keyCount, List.count_cons, hk, Ne.symm hk]

theorem engine.classify_keyCount (left right : List (String × String)) :
    ∀ keys : List String, keys.Nodup →
      ∀ k, engine.keyCount (engine.classify left right keys) k = if k ∈ keys then 1 else 0 := by
  intro keys
  induction keys with
  | nil => intro _ k; simp [engine.classify, engine.keyCount]
  | cons a rest ih =>
    intro hnd k
    have hrest := ih (List.nodup_cons.mp hnd).2 k
    have hanotin : a ∉ rest := (List.nodup_cons.mp hnd).1
    rw [engine.classify_cons, hrest]
    by_cases hk : k = a
    · subst hk
      rw [if_pos rfl, if_pos (List.mem_cons_self k rest), if_neg hanotin]
    · rw [if_neg hk]
      by_cases hmem : k ∈ rest
      · rw [if_pos hmem, if_pos (List.mem_cons_of_mem a hmem)]
      · rw [if_neg hmem, if_neg (by simp [List.mem_cons, hk, hmem])]

/-- C1 (diff partition invariant): every key of `keys(left) ∪ keys(right)`
appears in exactly one of the four output lists of `diffEntries`, exactly
once, and keys outside the union appear in none. -/
theorem diffEntries_partitions (left right : List (String × String)) (k : String) :
    engine.keyCount (engine.diffEntries left right) k =
      if k ∈ engine.jsKeys left ∨ k ∈ engine.jsKeys right then 1 else 0 := by
  have hperm := (List.perm_insertionSort engine.localeLe
      (engine.jsSetDedup (engine.jsKeys left ++ engine.jsKeys right))).symm
  have hnd : (List.insertionSort engine.localeLe
      (engine.jsSetDedup (engine.jsKeys left ++ engine.jsKeys right))).Nodup :=
    hperm.nodup (engine.jsSetDedup_nodup _)
  have hmem : k ∈ List.insertionSort engine.localeLe
      (engine.jsSetDedup (engine.jsKeys left ++ engine.jsKeys right)) ↔
      (k ∈ engine.jsKeys left ∨ k ∈ engine.jsKeys right) := by
    rw [List.mem_insertionSort, engine.jsSetDedup_mem, List.mem_append]
  have hcls := engine.classify_keyCount left right _ hnd k
  rw [engine.diffEntries, hcls]
  by_cases h : k ∈ engine.jsKeys left ∨ k ∈ engine.jsKeys right
  · rw [if_pos (hmem.mpr h), if_pos h]
  · rw [if_neg (fun hc => h (hmem.mp hc)), if_neg h]

theorem engine.classify_sublists (left right : List (String × String)) :
    ∀ keys : List String,
      List.Sublist ((engine.classify left right keys).added.map engine.AddedEntry.key) keys ∧
      List.Sublist ((engine.classify left right keys).removed.map engine.RemovedEntry.key) keys ∧
      List.Sublist ((engine.classify left right keys).changed.map engine.ChangedEntry.key) keys ∧
      List.Sublist ((engine.classify left right keys).unchanged.map engine.UnchangedEntry.key) keys := by
  intro keys
  induction keys with
  | nil => simp [engine.classify]
  | cons a rest ih =>
    obtain ⟨iha, ihr, ihc, ihu⟩ := ih
    simp only [engine.classify]
    split_ifs <;>
      exact ⟨by first | exact iha.cons a | simpa using iha.cons_cons a,
             by first | exact ihr.cons a | simpa using ihr.cons_cons a,
             by first | exact ihc.cons a | simpa using ihc.cons_cons a,
             by first | exact ihu.cons a | simpa using ihu.cons_cons a⟩

theorem engine.localeCompare_nonpos (a b : String) :
    engine.localeCompare a b ≤ 0 ↔ engine.localeLe a b := by
  unfold engine.localeCompare engine.localeLe
  split_ifs with h1 h2
  · simp [le_of_lt h1]
  · simp [le_of_eq h2]
  · constructor
    · intro h; exact absurd h (by norm_num)
    · intro h
      rcases lt_or_eq_of_le h with hlt | heq
      · exact absurd hlt h1
      · exact absurd heq h2

/-- C2 counterexample: on inputs with keys `"B"` and `"a"`, the `removed`
list of `diffEntries` is keyed `["a", "B"]` (the `localeCompare` order),
which is not sorted by code-unit (ordinal) comparison, since `"B" < "a"` in
code units. -/
theorem diffEntries_order_not_ordinal :
    (engine.diffEntries [("B", "1"), ("a", "2")] []).removed.map engine.RemovedEntry.key =
        ["a", "B"] ∧
      ¬ List.Pairwise engine.ordinalLe
        ((engine.diffEntries [("B", "1"), ("a", "2")] []).removed.map
          engine.RemovedEntry.key) := by
  constructor
  · decide
  · decide

/-- C2 amended: each of the four lists produced by `diffEntries` is ordered
by the (locale-sensitive) `localeCompare` comparator — under the default
collation modelled here, case-insensitive with lowercase first — rather than
by locale-independent code-unit comparison. -/
theorem diffEntries_sorted_by_localeCompare (left right : List (String × String)) :
    ((engine.diffEntries left right).added.map engine.AddedEntry.key).Pairwise
        (fun a b => engine.localeCompare a b ≤ 0) ∧
      ((engine.diffEntries left right).removed.map engine.RemovedEntry.key).Pairwise
        (fun a b => engine.localeCompare a b ≤ 0) ∧
      ((engine.diffEntries left right).changed.map engine.ChangedEntry.key).Pairwise
        (fun a b => engine.localeCompare a b ≤ 0) ∧
      ((engine.diffEntries left right).unchanged.map engine.UnchangedEntry.key).Pairwise
        (fun a b => engine.localeCompare a b ≤ 0) := by
  have hsorted : List.Sorted engine.localeLe
      (List.insertionSort engine.localeLe
        (engine.jsSetDedup (engine.jsKeys left ++ engine.jsKeys right))) :=
    List.sorted_insertionSort engine.localeLe _
  obtain ⟨ha, hr, hc, hu⟩ := engine.classify_sublists left right
    (List.insertionSort engine.localeLe
      (engine.jsSetDedup (engine.jsKeys left ++ engine.jsKeys right)))
  have conv : ∀ l : List String, l.Pairwise engine.localeLe →
      l.Pairwise (fun a b => engine.localeCompare a b ≤ 0) := by
    intro l hl
    exact hl.imp (fun h => (engine.localeCompare_nonpos _ _).mpr h)
  exact ⟨conv _ (hsorted.sublist ha), conv _ (hsorted.sublist hr),
         conv _ (hsorted.sublist hc), conv _ (hsorted.sublist hu)⟩

/-! ### Risk rule engine lemmas -/

theorem engine.foldl_guard_filterMap {α β γ : Type _} (p : α → Bool) (g : α → γ)
    (f : β → γ → β) :
    ∀ (l : List α) (st : β),
      l.foldl (fun st x => if p x then f st (g x) else st) st =
        (l.filterMap (fun x => if p x then some (g x) else none)).foldl f st := by
  intro l
  induction l with
  | nil => intro st; rfl
  | cons a rest ih =>
    intro st
    by_cases h : p a <;> simp [List.filterMap_cons, h, ih]

theorem engine.foldl_body_flatMap {α β γ : Type _} (plan : α → List γ) (f : β → γ → β)
    (body : β → α → β) (hbody : ∀ st a, body st a = (plan a).foldl f st) :
    ∀ (l : List α) (st : β), l.foldl body st = (l.flatMap plan).foldl f st := by
  intro l
  induction l with
  | nil => intro st; rfl
  | cons a rest ih =>
    intro st
    rw [List.foldl_cons, List.flatMap_cons, List.foldl_append, hbody, ih]

theorem engine.processAdded_eq_plan (rules : List engine.Rule) (st : engine.RState)
    (a : engine.AddedEntry) :
    engine.processAdded rules st a = (engine.planAdded rules a).foldl engine.stepItem st := by
  unfold engine.processAdded engine.planAdded
  have h := engine.foldl_guard_filterMap
    (fun rule => engine.ruleMatches rule a.key (some a.value))
    (fun rule => (⟨a.key, rule, "added", none⟩ : engine.PlanItem)) engine.stepItem rules st
  simpa only [engine.stepItem] using h

theorem engine.processRemoved_eq_plan (rules : List engine.Rule) (st : engine.RState)
    (r : engine.RemovedEntry) :
    engine.processRemoved rules st r = (engine.planRemoved rules r).foldl engine.stepItem st := by
  unfold engine.processRemoved engine.planRemoved
  have h := engine.foldl_guard_filterMap
    (fun rule => engine.ruleMatches rule r.key (some r.value))
    (fun rule => (⟨r.key, rule, "removed", none⟩ : engine.PlanItem)) engine.stepItem rules st
  simpa only [engine.stepItem] using h

theorem engine.processChangedRule_eq_plan (c : engine.ChangedEntry) (st : engine.RState)
    (rule : engine.Rule) :
    engine.processChangedRule c st rule =
      (engine.pairItemsChanged c rule).foldl engine.stepItem st := by
  unfold engine.processChangedRule engine.pairItemsChanged
  cases hv : rule.valuePattern with
  | none =>
    by_cases hk : engine.matchesKey rule c.key <;> simp [hk, engine.stepItem]
  | some p =>
    by_cases ht : engine.ruleMatches rule c.key (some c.toV) <;>
      by_cases hf : engine.ruleMatches rule c.key (some c.fromV) <;>
        simp [ht, hf, engine.stepItem]

theorem engine.changedLoop_eq_plan (rules : List engine.Rule) (c : engine.ChangedEntry) :
    ∀ st : engine.RState,
      rules.foldl (engine.processChangedRule c) st =
        (engine.planChanged rules c).foldl engine.stepItem st := by
  unfold engine.planChanged
  exact engine.foldl_body_flatMap _ _ _
    (fun st rule => engine.processChangedRule_eq_plan c st rule) rules

theorem engine.runRules_eq_plan (diff : engine.DiffResult) (rules : List engine.Rule) :
    engine.runRules diff rules = (engine.planOf diff rules).foldl engine.stepItem ⟨[], []⟩ := by
  unfold engine.runRules engine.planOf
  rw [List.foldl_append, List.foldl_append]
  rw [engine.foldl_body_flatMap (engine.planAdded rules) engine.stepItem
    (engine.processAdded rules) (fun st a => engine.processAdded_eq_plan rules st a)]
  rw [engine.foldl_body_flatMap (engine.planRemoved rules) engine.stepItem
    (engine.processRemoved rules) (fun st r => engine.processRemoved_eq_plan rules st r)]
  rw [engine.foldl_body_flatMap (engine.planChanged rules) engine.stepItem
    (fun st c => rules.foldl (engine.processChangedRule c) st)
    (fun st c => engine.changedLoop_eq_plan rules c st)]

theorem engine.run_clean :
    ∀ (plan : List engine.PlanItem) (fs : List engine.RiskFinding) (seen : List String),
      (∀ p ∈ plan, engine.itemFp p ∉ seen) → (plan.map engine.itemFp).Nodup →
      fs.length + plan.length ≤ engine.MAX_FINDINGS →
      plan.foldl engine.stepItem ⟨fs, seen⟩ =
        ⟨fs ++ plan.map engine.itemFinding, (plan.map engine.itemFp).reverse ++ seen⟩ := by
  intro plan
  induction plan with
  | nil => intro fs seen _ _ _; simp
  | cons p rest ih =>
    intro fs seen hnotin hnd hlen
    have hfp : engine.itemFp p ∉ seen := hnotin p (List.mem_cons_self p rest)
    have hlt : ¬ engine.MAX_FINDINGS ≤ fs.length := by
      simp only [List.length_cons] at hlen; omega
    have hfp' : engine.fingerprintOf p.rule.id p.context p.key (p.note.getD "") ∉ seen := hfp
    have hstep : engine.stepItem ⟨fs, seen⟩ p =
        ⟨fs ++ [engine.itemFinding p], engine.itemFp p :: seen⟩ := by
      simp only [engine.stepItem, engine.pushFinding]
      rw [if_neg hfp', if_neg hlt]
      rfl
    rw [List.foldl_cons, hstep]
    have hnotin' : ∀ q ∈ rest, engine.itemFp q ∉ engine.itemFp p :: seen := by
      intro q hq
      simp only [List.mem_cons, not_or]
      constructor
      · intro heq
        have : engine.itemFp p ∈ rest.map engine.itemFp :=
          heq ▸ List.mem_map_of_mem engine.itemFp hq
        exact (List.nodup_cons.mp (by simpa using hnd)).1 this
      · exact hnotin q (List.mem_cons_of_mem p hq)
    have hnd' : (rest.map engine.itemFp).Nodup := (List.nodup_cons.mp (by simpa using hnd)).2
    have hlen' : (fs ++ [engine.itemFinding p]).length + rest.length ≤ engine.MAX_FINDINGS := by
      simp only [List.length_append, List.length_cons, List.length_singleton, List.length_nil] at hlen ⊢
      omega
    rw [ih _ _ hnotin' hnd' hlen']
    simp [List.append_assoc]

theorem engine.run_len_le :
    ∀ (plan : List engine.PlanItem) (st : engine.RState),
      (plan.foldl engine.stepItem st).findings.length ≤
        max st.findings.length engine.MAX_FINDINGS := by
  intro plan
  induction plan with
  | nil => intro st; exact le_max_left _ _
  | cons p rest ih =>
    intro st
    rw [List.foldl_cons]
    have hstep : (engine.stepItem st p).findings.length ≤
        max st.findings.length engine.MAX_FINDINGS := by
      simp only [engine.stepItem, engine.pushFinding]
      split_ifs with h1 h2
      · exact le_max_left _ _
      · exact le_max_left _ _
      · simp only [List.length_append, List.length_singleton, List.length_nil, List.length_cons]
        exact le_trans (Nat.succ_le_of_lt (Nat.lt_of_not_le h2)) (le_max_right _ _)
    exact le_trans (ih _) (max_le hstep (le_max_right _ _))

theorem engine.run_len_nodup :
    ∀ (plan : List engine.PlanItem) (fs : List engine.RiskFinding) (seen : List String),
      (∀ p ∈ plan, engine.itemFp p ∉ seen) → (plan.map engine.itemFp).Nodup →
      (plan.foldl engine.stepItem ⟨fs, seen⟩).findings.length =
        min (fs.length + plan.length) (max fs.length engine.MAX_FINDINGS) := by
  intro plan
  induction plan with
  | nil =>
    intro fs seen _ _
    simp only [List.foldl_nil, List.length_nil, Nat.add_zero]
    omega
  | cons p rest ih =>
    intro fs seen hnotin hnd
    have hfp : engine.itemFp p ∉ seen := hnotin p (List.mem_cons_self p rest)
    have hnotin' : ∀ q ∈ rest, engine.itemFp q ∉ engine.itemFp p :: seen := by
      intro q hq
      simp only [List.mem_cons, not_or]
      refine ⟨?_, hnotin q (List.mem_cons_of_mem p hq)⟩
      intro heq
      have : engine.itemFp p ∈ rest.map engine.itemFp :=
        heq ▸ List.mem_map_of_mem engine.itemFp hq
      exact (List.nodup_cons.mp (by simpa using hnd)).1 this
    have hnd' : (rest.map engine.itemFp).Nodup := (List.nodup_cons.mp (by simpa using hnd)).2
    rw [List.foldl_cons]
    have hfp' : engine.fingerprintOf p.rule.id p.context p.key (p.note.getD "") ∉ seen := hfp
    by_cases hcap : engine.MAX_FINDINGS ≤ fs.length
    · have hstep : engine.stepItem ⟨fs, seen⟩ p = ⟨fs, engine.itemFp p :: seen⟩ := by
        simp only [engine.stepItem, engine.pushFinding]
        rw [if_neg hfp', if_pos hcap]
        rfl
      rw [hstep, ih _ _ hnotin' hnd']
      simp only [List.length_cons]
      omega
    · have hstep : engine.stepItem ⟨fs, seen⟩ p =
          ⟨fs ++ [engine.itemFinding p], engine.itemFp p :: seen⟩ := by
        simp only [engine.stepItem, engine.pushFinding]
        rw [if_neg hfp', if_neg hcap]
        rfl
      rw [hstep, ih _ _ hnotin' hnd']
      simp only [List.length_append, List.length_singleton, List.length_nil, List.length_cons]
      omega

/-! ### Fingerprint decomposition -/

theorem colonFraming :
    ∀ (a₁ b₁ a₂ b₂ : List Char), ':' ∉ a₁ → ':' ∉ a₂ →
      a₁ ++ ':' :: b₁ = a₂ ++ ':' :: b₂ → a₁ = a₂ ∧ b₁ = b₂ := by
  intro a₁
  induction a₁ with
  | nil =>
    intro b₁ a₂ b₂ _ h₂ heq
    cases a₂ with
    | nil => simpa using heq
    | cons c t =>
      simp only [List.nil_append, List.cons_append, List.cons.injEq] at heq
      exact absurd (List.mem_cons_self c t) (by rw [← heq.1] at h₂ ⊢; exact h₂)
  | cons x t ih =>
    intro b₁ a₂ b₂ h₁ h₂ heq
    cases a₂ with
    | nil =>
      simp only [List.cons_append, List.nil_append, List.cons.injEq] at heq
      exact absurd (List.mem_cons_self x t) (by rw [heq.1] at h₁ ⊢; exact h₁)
    | cons y t₂ =>
      simp only [List.cons_append, List.cons.injEq] at heq
      have h₁' : ':' ∉ t := fun hc => h₁ (List.mem_cons_of_mem x hc)
      have h₂' : ':' ∉ t₂ := fun hc => h₂ (List.mem_cons_of_mem y hc)
      obtain ⟨he, hb⟩ := ih b₁ t₂ b₂ h₁' h₂' heq.2
      exact ⟨by rw [heq.1, he], hb⟩

theorem engine.data_fingerprintOf (i c k n : String) :
    (engine.fingerprintOf i c k n).data =
      i.data ++ ':' :: ':' :: (c.data ++ ':' :: ':' :: (k.data ++ ':' :: ':' :: n.data)) := by
  simp only [engine.fingerprintOf, String.data_append]
  simp [List.append_assoc]

theorem engine.fingerprintOf_inj (i₁ c₁ k₁ n₁ i₂ c₂ k₂ n₂ : String)
    (hi₁ : engine.noColon i₁) (hc₁ : engine.noColon c₁) (hk₁ : engine.noColon k₁)
    (hi₂ : engine.noColon i₂) (hc₂ : engine.noColon c₂) (hk₂ : engine.noColon k₂)
    (h : engine.fingerprintOf i₁ c₁ k₁ n₁ = engine.fingerprintOf i₂ c₂ k₂ n₂) :
    i₁ = i₂ ∧ c₁ = c₂ ∧ k₁ = k₂ ∧ n₁ = n₂ := by
  have hd : (engine.fingerprintOf i₁ c₁ k₁ n₁).data = (engine.fingerprintOf i₂ c₂ k₂ n₂).data :=
    congrArg String.data h
  rw [engine.data_fingerprintOf, engine.data_fingerprintOf] at hd
  obtain ⟨hi, hrest⟩ := colonFraming _ _ _ _ hi₁ hi₂ hd
  have hrest₂ := List.cons.inj hrest
  obtain ⟨hc, hrest₃⟩ := colonFraming _ _ _ _ hc₁ hc₂ hrest₂.2
  have hrest₄ := List.cons.inj hrest₃
  obtain ⟨hk, hrest₅⟩ := colonFraming _ _ _ _ hk₁ hk₂ hrest₄.2
  have hn := List.cons.inj hrest₅
  exact ⟨String.ext hi, String.ext hc, String.ext hk, String.ext hn.2⟩

/-! ### Plan membership characterisations -/

theorem engine.planAdded_mem (rules : List engine.Rule) (a : engine.AddedEntry)
    (q : engine.PlanItem) (hq : q ∈ engine.planAdded rules a) :
    q.rule ∈ rules ∧ q.key = a.key ∧ q.context = "added" ∧ q.note = none := by
  rw [engine.planAdded, List.mem_filterMap] at hq
  obtain ⟨rule, hrule, hsome⟩ := hq
  by_cases hm : engine.ruleMatches rule a.key (some a.value)
  · rw [if_pos hm] at hsome
    cases hsome
    exact ⟨hrule, rfl, rfl, rfl⟩
  · rw [if_neg hm] at hsome
    cases hsome

theorem engine.planRemoved_mem (rules : List engine.Rule) (r : engine.RemovedEntry)
    (q : engine.PlanItem) (hq : q ∈ engine.planRemoved rules r) :
    q.rule ∈ rules ∧ q.key = r.key ∧ q.context = "removed" ∧ q.note = none := by
  rw [engine.planRemoved, List.mem_filterMap] at hq
  obtain ⟨rule, hrule, hsome⟩ := hq
  by_cases hm : engine.ruleMatches rule r.key (some r.value)
  · rw [if_pos hm] at hsome
    cases hsome
    exact ⟨hrule, rfl, rfl, rfl⟩
  · rw [if_neg hm] at hsome
    cases hsome

theorem engine.pairItemsChanged_mem (c : engine.ChangedEntry) (rule : engine.Rule)
    (q : engine.PlanItem) (hq : q ∈ engine.pairItemsChanged c rule) :
    q.rule = rule ∧ q.key = c.key ∧ q.context = "changed" ∧
      (q.note = none ∨ q.note = some "matches new value" ∨
        q.note = some "matches old value") := by
  rw [engine.pairItemsChanged] at hq
  cases hv : rule.valuePattern with
  | none =>
    rw [hv] at hq
    by_cases hk : engine.matchesKey rule c.key
    · rw [if_pos hk, List.mem_singleton] at hq
      subst hq
      exact ⟨rfl, rfl, rfl, Or.inl rfl⟩
    · rw [if_neg hk] at hq
      cases hq
  | some p =>
    rw [hv] at hq
    simp only [List.mem_append] at hq
    rcases hq with h | h
    · by_cases ht : engine.ruleMatches rule c.key (some c.toV)
      · rw [if_pos ht, List.mem_singleton] at h
        subst h
        exact ⟨rfl, rfl, rfl, Or.inr (Or.inl rfl)⟩
      · rw [if_neg ht] at h
        cases h
    · by_cases hf : (engine.ruleMatches rule c.key (some c.fromV) &&
          !engine.ruleMatches rule c.key (some c.toV))
      · rw [if_pos hf, List.mem_singleton] at h
        subst h
        exact ⟨rfl, rfl, rfl, Or.inr (Or.inr rfl)⟩
      · rw [if_neg hf] at h
        cases h

theorem engine.planChanged_mem (rules : List engine.Rule) (c : engine.ChangedEntry)
    (q : engine.PlanItem) (hq : q ∈ engine.planChanged rules c) :
    q.rule ∈ rules ∧ q.key = c.key ∧ q.context = "changed" ∧
      (q.note = none ∨ q.note = some "matches new value" ∨
        q.note = some "matches old value") := by
  rw [engine.planChanged, List.mem_flatMap] at hq
  obtain ⟨rule, hrule, hmem⟩ := hq
  obtain ⟨hr, hkey, hctx, hnote⟩ := engine.pairItemsChanged_mem c rule q hmem
  exact ⟨hr ▸ hrule, hkey, hctx, hnote⟩

/-! ### Plan fingerprint distinctness -/

theorem engine.filterMap_ite_sublist {α β : Type _} (p : α → Bool) (g : α → β) :
    ∀ l : List α,
      List.Sublist (l.filterMap (fun x => if p x then some (g x) else none)) (l.map g) := by
  intro l
  induction l with
  | nil => simp
  | cons a rest ih =>
    by_cases h : p a <;> simp [List.filterMap_cons, h]
    · exact ih
    · exact ih.cons (g a)

theorem engine.planAdded_ids_sublist (rules : List engine.Rule) (a : engine.AddedEntry) :
    List.Sublist ((engine.planAdded rules a).map (fun q => q.rule.id))
      (rules.map engine.Rule.id) := by
  rw [engine.planAdded, List.map_filterMap]
  have hsimp : (fun rule => (if engine.ruleMatches rule a.key (some a.value) then
      some (⟨a.key, rule, "added", none⟩ : engine.PlanItem) else none).map (fun q => q.rule.id)) =
      (fun rule => if engine.ruleMatches rule a.key (some a.value) then
        some rule.id else none) := by
    funext rule
    by_cases h : engine.ruleMatches rule a.key (some a.value) <;> simp [h]
  rw [hsimp]
  exact engine.filterMap_ite_sublist _ _ rules

theorem engine.planRemoved_ids_sublist (rules : List engine.Rule) (r : engine.RemovedEntry) :
    List.Sublist ((engine.planRemoved rules r).map (fun q => q.rule.id))
      (rules.map engine.Rule.id) := by
  rw [engine.planRemoved, List.map_filterMap]
  have hsimp : (fun rule => (if engine.ruleMatches rule r.key (some r.value) then
      some (⟨r.key, rule, "removed", none⟩ : engine.PlanItem) else none).map
        (fun q => q.rule.id)) =
      (fun rule => if engine.ruleMatches rule r.key (some r.value) then
        some rule.id else none) := by
    funext rule
    by_cases h : engine.ruleMatches rule r.key (some r.value) <;> simp [h]
  rw [hsimp]
  exact engine.filterMap_ite_sublist _ _ rules

theorem engine.pairItemsChanged_ids_sublist (c : engine.ChangedEntry) (rule : engine.Rule) :
    List.Sublist ((engine.pairItemsChanged c rule).map (fun q => q.rule.id)) [rule.id] := by
  rw [engine.pairItemsChanged]
  cases rule.valuePattern with
  | none => split_ifs <;> simp
  | some p =>
    by_cases ht : engine.ruleMatches rule c.key (some c.toV) <;>
      by_cases hf : engine.ruleMatches rule c.key (some c.fromV) <;>
        simp [ht, hf]

theorem engine.planChanged_ids_sublist (rules : List engine.Rule) (c : engine.ChangedEntry) :
    List.Sublist ((engine.planChanged rules c).map (fun q => q.rule.id))
      (rules.map engine.Rule.id) := by
  rw [engine.planChanged]
  induction rules with
  | nil => simp
  | cons r rest ih =>
    rw [List.flatMap_cons, List.map_append, List.map_cons]
    exact List.Sublist.append (engine.pairItemsChanged_ids_sublist c r) ih

theorem engine.seg_tuple_nodup {α : Type _} (entries : List α) (keyOf : α → String)
    (items : α → List engine.PlanItem)
    (hids : ∀ e, ((items e).map (fun q => q.rule.id)).Nodup)
    (hkey : ∀ e q, q ∈ items e → q.key = keyOf e)
    (hkeysnd : (entries.map keyOf).Nodup) :
    ((entries.flatMap items).map engine.tupleOf).Nodup := by
  rw [List.map_flatMap, List.nodup_flatMap]
  constructor
  · intro e _
    have h1 : ((items e).map engine.tupleOf).map (fun t => t.1) =
        (items e).map (fun q => q.rule.id) := by
      rw [List.map_map]; rfl
    exact List.Nodup.of_map _ (h1 ▸ hids e)
  · have hp := List.pairwise_map.mp hkeysnd
    refine hp.imp ?_
    intro e₁ e₂ hne
    simp only [Function.onFun]
    rw [List.disjoint_left]
    intro t ht₁ ht₂
    obtain ⟨q₁, hq₁, he₁⟩ := List.mem_map.mp ht₁
    obtain ⟨q₂, hq₂, he₂⟩ := List.mem_map.mp ht₂
    apply hne
    have hk₁ := hkey e₁ q₁ hq₁
    have hk₂ := hkey e₂ q₂ hq₂
    have : q₁.key = q₂.key := by
      have := he₂ ▸ he₁
      exact congrArg (fun t => t.2.2.1) this
    rw [← hk₁, ← hk₂, this]

theorem engine.planOf_mem (diff : engine.DiffResult) (rules : List engine.Rule)
    (q : engine.PlanItem) (hq : q ∈ engine.planOf diff rules) :
    q.rule ∈ rules ∧
      ((∃ a ∈ diff.added, q.key = a.key) ∨ (∃ r ∈ diff.removed, q.key = r.key) ∨
        (∃ c ∈ diff.changed, q.key = c.key)) ∧
      (q.context = "added" ∨ q.context = "removed" ∨ q.context = "changed") := by
  rw [engine.planOf, List.mem_append, List.mem_append] at hq
  rcases hq with (hq | hq) | hq
  · obtain ⟨a, ha, hmem⟩ := List.mem_flatMap.mp hq
    obtain ⟨hr, hk, hc, _⟩ := engine.planAdded_mem rules a q hmem
    exact ⟨hr, Or.inl ⟨a, ha, hk⟩, Or.inl hc⟩
  · obtain ⟨r, hrm, hmem⟩ := List.mem_flatMap.mp hq
    obtain ⟨hr, hk, hc, _⟩ := engine.planRemoved_mem rules r q hmem
    exact ⟨hr, Or.inr (Or.inl ⟨r, hrm, hk⟩), Or.inr (Or.inl hc)⟩
  · obtain ⟨c, hcm, hmem⟩ := List.mem_flatMap.mp hq
    obtain ⟨hr, hk, hc, _⟩ := engine.planChanged_mem rules c q hmem
    exact ⟨hr, Or.inr (Or.inr ⟨c, hcm, hk⟩), Or.inr (Or.inr hc)⟩

theorem engine.planOf_tuple_nodup (diff : engine.DiffResult) (rules : List engine.Rule)
    (hndAdd : (diff.added.map engine.AddedEntry.key).Nodup)
    (hndRem : (diff.removed.map engine.RemovedEntry.key).Nodup)
    (hndCh : (diff.changed.map engine.ChangedEntry.key).Nodup)
    (hndIds : (rules.map engine.Rule.id).Nodup) :
    ((engine.planOf diff rules).map engine.tupleOf).Nodup := by
  have hA : ((diff.added.flatMap (engine.planAdded rules)).map engine.tupleOf).Nodup :=
    engine.seg_tuple_nodup diff.added engine.AddedEntry.key (engine.planAdded rules)
      (fun a => hndIds.sublist (engine.planAdded_ids_sublist rules a))
      (fun a q hq => (engine.planAdded_mem rules a q hq).2.1) hndAdd
  have hR : ((diff.removed.flatMap (engine.planRemoved rules)).map engine.tupleOf).Nodup :=
    engine.seg_tuple_nodup diff.removed engine.RemovedEntry.key (engine.planRemoved rules)
      (fun r => hndIds.sublist (engine.planRemoved_ids_sublist rules r))
      (fun r q hq => (engine.planRemoved_mem rules r q hq).2.1) hndRem
  have hC : ((diff.changed.flatMap (engine.planChanged rules)).map engine.tupleOf).Nodup :=
    engine.seg_tuple_nodup diff.changed engine.ChangedEntry.key (engine.planChanged rules)
      (fun c => hndIds.sublist (engine.planChanged_ids_sublist rules c))
      (fun c q hq => (engine.planChanged_mem rules c q hq).2.1) hndCh
  have hctxA : ∀ t ∈ (diff.added.flatMap (engine.planAdded rules)).map engine.tupleOf,
      t.2.1 = "added" := by
    intro t ht
    obtain ⟨q, hq, rfl⟩ := List.mem_map.mp ht
    obtain ⟨a, _, hmem⟩ := List.mem_flatMap.mp hq
    exact (engine.planAdded_mem rules a q hmem).2.2.1
  have hctxR : ∀ t ∈ (diff.removed.flatMap (engine.planRemoved rules)).map engine.tupleOf,
      t.2.1 = "removed" := by
    intro t ht
    obtain ⟨q, hq, rfl⟩ := List.mem_map.mp ht
    obtain ⟨r, _, hmem⟩ := List.mem_flatMap.mp hq
    exact (engine.planRemoved_mem rules r q hmem).2.2.1
  have hctxC : ∀ t ∈ (diff.changed.flatMap (engine.planChanged rules)).map engine.tupleOf,
      t.2.1 = "changed" := by
    intro t ht
    obtain ⟨q, hq, rfl⟩ := List.mem_map.mp ht
    obtain ⟨c, _, hmem⟩ := List.mem_flatMap.mp hq
    exact (engine.planChanged_mem rules c q hmem).2.2.1
  rw [engine.planOf, List.map_append, List.map_append, List.nodup_append]
  refine ⟨?_, hC, ?_⟩
  · rw [List.nodup_append]
    refine ⟨hA, hR, ?_⟩
    rw [List.disjoint_left]
    intro t htA htR
    have h1 := hctxA t htA
    have h2 := hctxR t htR
    rw [h1] at h2
    exact absurd h2 (by decide)
  · rw [List.disjoint_left]
    intro t htAR htC
    have h2 := hctxC t htC
    rcases List.mem_append.mp htAR with h | h
    · have h1 := hctxA t h
      rw [h1] at h2
      exact absurd h2 (by decide)
    · have h1 := hctxR t h
      rw [h1] at h2
      exact absurd h2 (by decide)

theorem engine.planOf_fp_nodup (diff : engine.DiffResult) (rules : List engine.Rule)
    (hndAdd : (diff.added.map engine.AddedEntry.key).Nodup)
    (hndRem : (diff.removed.map engine.RemovedEntry.key).Nodup)
    (hndCh : (diff.changed.map engine.ChangedEntry.key).Nodup)
    (hndIds : (rules.map engine.Rule.id).Nodup)
    (hcolA : ∀ a ∈ diff.added, engine.noColon a.key)
    (hcolR : ∀ r ∈ diff.removed, engine.noColon r.key)
    (hcolC : ∀ c ∈ diff.changed, engine.noColon c.key)
    (hcolIds : ∀ r ∈ rules, engine.noColon r.id) :
    ((engine.planOf diff rules).map engine.itemFp).Nodup := by
  have hmapeq : (engine.planOf diff rules).map engine.itemFp =
      ((engine.planOf diff rules).map engine.tupleOf).map
        (fun t => engine.fingerprintOf t.1 t.2.1 t.2.2.1 t.2.2.2) := by
    rw [List.map_map]; rfl
  rw [hmapeq]
  have hcomp : ∀ t ∈ (engine.planOf diff rules).map engine.tupleOf,
      engine.noColon t.1 ∧ engine.noColon t.2.1 ∧ engine.noColon t.2.2.1 := by
    intro t ht
    obtain ⟨q, hq, rfl⟩ := List.mem_map.mp ht
    obtain ⟨hrule, hkey, hctx⟩ := engine.planOf_mem diff rules q hq
    refine ⟨hcolIds _ hrule, ?_, ?_⟩
    · rcases hctx with h | h | h <;> rw [engine.tupleOf] <;> simp only [h] <;> decide
    · show engine.noColon q.key
      rcases hkey with ⟨a, ha, hk⟩ | ⟨r, hr, hk⟩ | ⟨c, hc, hk⟩
      · exact hk ▸ hcolA a ha
      · exact hk ▸ hcolR r hr
      · exact hk ▸ hcolC c hc
  refine List.Nodup.map_on ?_ (engine.planOf_tuple_nodup diff rules hndAdd hndRem hndCh hndIds)
  intro t₁ ht₁ t₂ ht₂ heq
  obtain ⟨h1i, h1c, h1k⟩ := hcomp t₁ ht₁
  obtain ⟨h2i, h2c, h2k⟩ := hcomp t₂ ht₂
  obtain ⟨hi, hc, hk, hn⟩ := engine.fingerprintOf_inj _ _ _ _ _ _ _ _ h1i h1c h1k h2i h2c h2k heq
  obtain ⟨i₁, c₁, k₁, n₁⟩ := t₁
  obtain ⟨i₂, c₂, k₂, n₂⟩ := t₂
  simp only at hi hc hk hn
  rw [hi, hc, hk, hn]

theorem engine.flatMap_length_le {α β : Type _} (f : α → List β) (B : Nat)
    (h : ∀ a, (f a).length ≤ B) : ∀ l : List α, (l.flatMap f).length ≤ l.length * B := by
  intro l
  induction l with
  | nil => simp
  | cons a rest ih =>
    rw [List.flatMap_cons, List.length_append, List.length_cons]
    have := h a
    calc (f a).length + (rest.flatMap f).length ≤ B + rest.length * B := by omega
      _ = (rest.length + 1) * B := by ring

theorem engine.pairItemsChanged_length_le (c : engine.ChangedEntry) (rule : engine.Rule) :
    (engine.pairItemsChanged c rule).length ≤ 1 := by
  rw [engine.pairItemsChanged]
  cases rule.valuePattern with
  | none => split_ifs <;> simp
  | some p =>
    by_cases ht : engine.ruleMatches rule c.key (some c.toV) <;>
      by_cases hf : engine.ruleMatches rule c.key (some c.fromV) <;>
        simp [ht, hf]

theorem engine.planOf_length_le (diff : engine.DiffResult) (rules : List engine.Rule) :
    (engine.planOf diff rules).length ≤
      (diff.added.length + diff.removed.length + diff.changed.length) * rules.length := by
  have hA : (diff.added.flatMap (engine.planAdded rules)).length ≤
      diff.added.length * rules.length :=
    engine.flatMap_length_le _ _ (fun a => by
      rw [engine.planAdded]
      exact List.length_filterMap_le _ _) _
  have hR : (diff.removed.flatMap (engine.planRemoved rules)).length ≤
      diff.removed.length * rules.length :=
    engine.flatMap_length_le _ _ (fun r => by
      rw [engine.planRemoved]
      exact List.length_filterMap_le _ _) _
  have hC : (diff.changed.flatMap (engine.planChanged rules)).length ≤
      diff.changed.length * rules.length := by
    refine engine.flatMap_length_le _ _ (fun c => ?_) _
    rw [engine.planChanged]
    calc (rules.flatMap (engine.pairItemsChanged c)).length ≤ rules.length * 1 :=
          engine.flatMap_length_le _ 1 (engine.pairItemsChanged_length_le c) rules
      _ = rules.length := by ring
  rw [engine.planOf, List.length_append, List.length_append]
  calc (diff.added.flatMap (engine.planAdded rules)).length +
        (diff.removed.flatMap (engine.planRemoved rules)).length +
        (diff.changed.flatMap (engine.planChanged rules)).length ≤
      diff.added.length * rules.length + diff.removed.length * rules.length +
        diff.changed.length * rules.length := by omega
    _ = (diff.added.length + diff.removed.length + diff.changed.length) * rules.length := by
        ring

/-- Under distinct fingerprints and the size bound, the findings list is
exactly the plan's findings in order. -/
theorem engine.findings_eq_plan (diff : engine.DiffResult) (rules : List engine.Rule)
    (hfp : ((engine.planOf diff rules).map engine.itemFp).Nodup)
    (hsize : (engine.planOf diff rules).length ≤ engine.MAX_FINDINGS) :
    (engine.applyRiskRules diff rules).findings =
      (engine.planOf diff rules).map engine.itemFinding := by
  have hrun : engine.runRules diff rules =
      ⟨[] ++ (engine.planOf diff rules).map engine.itemFinding,
        ((engine.planOf diff rules).map engine.itemFp).reverse ++ []⟩ := by
    rw [engine.runRules_eq_plan]
    exact engine.run_clean _ [] [] (by simp) hfp (by simpa using hsize)
  simp only [engine.applyRiskRules, hrun]
  simp

/-! ### Counting findings per changed entry and rule -/

theorem string_append_cancel_left {a b c : String} (h : a ++ b = a ++ c) : b = c := by
  have hd := congrArg String.data h
  rw [String.data_append, String.data_append] at hd
  exact String.ext (List.append_cancel_left hd)

theorem engine.countFindings_plan (plan : List engine.PlanItem) (rid key message : String) :
    engine.countFindings (plan.map engine.itemFinding) rid key message =
      plan.countP (engine.planPred rid key message) := by
  rw [engine.countFindings, List.countP_map]
  rfl

theorem engine.countP_flatMap {α β : Type _} (f : α → List β) (p : β → Bool) :
    ∀ l : List α, (l.flatMap f).countP p = (l.map (fun a => (f a).countP p)).sum := by
  intro l
  induction l with
  | nil => simp
  | cons a rest ih => rw [List.flatMap_cons, List.countP_append, ih, List.map_cons, List.sum_cons]

theorem engine.sum_single {α : Type _} (keyOf : α → String) (g : α → Nat) :
    ∀ (l : List α) (c : α), c ∈ l → (l.map keyOf).Nodup →
      (∀ e ∈ l, keyOf e ≠ keyOf c → g e = 0) → (l.map g).sum = g c := by
  intro l
  induction l with
  | nil => intro c hc; cases hc
  | cons a rest ih =>
    intro c hc hnd hz
    have hhead : keyOf a ∉ rest.map keyOf := (List.nodup_cons.mp hnd).1
    rcases List.mem_cons.mp hc with hca | hc
    · subst hca
      have hrest : ∀ e ∈ rest, g e = 0 := by
        intro e he
        refine hz e (List.mem_cons_of_mem _ he) ?_
        intro heq
        exact hhead (heq ▸ List.mem_map_of_mem keyOf he)
      rw [List.map_cons, List.sum_cons, List.sum_eq_zero]
      · omega
      · intro x hx
        obtain ⟨e, he, rfl⟩ := List.mem_map.mp hx
        exact hrest e he
    · have hga : g a = 0 := by
        refine hz a (List.mem_cons_self a rest) ?_
        intro heq
        exact hhead (heq ▸ List.mem_map_of_mem keyOf hc)
      rw [List.map_cons, List.sum_cons, hga,
        ih c hc (List.nodup_cons.mp hnd).2 (fun e he hne => hz e (List.mem_cons_of_mem a he) hne)]
      omega

theorem engine.planPred_requires (rid key message : String) (q : engine.PlanItem)
    (h : engine.planPred rid key message q = true) :
    q.rule.id = rid ∧ q.key = key ∧
      engine.msg q.rule q.key ++
        (match q.note with
         | some n => " (" ++ q.context ++ "; " ++ n ++ ")"
         | none => " (" ++ q.context ++ ")") = message := by
  rw [engine.planPred] at h
  simp only [Bool.and_eq_true, beq_iff_eq] at h
  exact ⟨h.1.1, h.1.2, h.2⟩

theorem engine.countP_seg_zero (rules : List engine.Rule) (rule : engine.Rule)
    (c : engine.ChangedEntry) (suffix : String) (hr : rule ∈ rules)
    (hndIds : (rules.map engine.Rule.id).Nodup)
    (seg : List engine.PlanItem) (ctx : String)
    (hseg : ∀ q ∈ seg, q.rule ∈ rules ∧ q.context = ctx ∧ q.note = none)
    (hsuf : (" (" ++ ctx ++ ")") ≠ suffix) :
    seg.countP (engine.planPred rule.id c.key (engine.msg rule c.key ++ suffix)) = 0 := by
  rw [List.countP_eq_zero]
  intro q hq
  intro hpred
  obtain ⟨hid, hkey, hmsg⟩ := engine.planPred_requires _ _ _ q hpred
  obtain ⟨hqrule, hctx, hnote⟩ := hseg q hq
  have hruleq : q.rule = rule := List.inj_on_of_nodup_map hndIds hqrule hr hid
  rw [hnote, hctx, hruleq, hkey] at hmsg
  exact hsuf (string_append_cancel_left hmsg)

theorem engine.countP_plan_eq_pair (diff : engine.DiffResult) (rules : List engine.Rule)
    (rule : engine.Rule) (c : engine.ChangedEntry) (suffix : String)
    (hr : rule ∈ rules) (hc : c ∈ diff.changed)
    (hndIds : (rules.map engine.Rule.id).Nodup)
    (hndCh : (diff.changed.map engine.ChangedEntry.key).Nodup)
    (hsufA : (" (added)" : String) ≠ suffix)
    (hsufR : (" (removed)" : String) ≠ suffix) :
    (engine.planOf diff rules).countP
        (engine.planPred rule.id c.key (engine.msg rule c.key ++ suffix)) =
      (engine.pairItemsChanged c rule).countP
        (engine.planPred rule.id c.key (engine.msg rule c.key ++ suffix)) := by
  rw [engine.planOf, List.countP_append, List.countP_append]
  have hA : (diff.added.flatMap (engine.planAdded rules)).countP
      (engine.planPred rule.id c.key (engine.msg rule c.key ++ suffix)) = 0 := by
    refine engine.countP_seg_zero rules rule c suffix hr hndIds _ "added" ?_ hsufA
    intro q hq
    obtain ⟨a, _, hmem⟩ := List.mem_flatMap.mp hq
    obtain ⟨h1, _, h3, h4⟩ := engine.planAdded_mem rules a q hmem
    exact ⟨h1, h3, h4⟩
  have hR : (diff.removed.flatMap (engine.planRemoved rules)).countP
      (engine.planPred rule.id c.key (engine.msg rule c.key ++ suffix)) = 0 := by
    refine engine.countP_seg_zero rules rule c suffix hr hndIds _ "removed" ?_ hsufR
    intro q hq
    obtain ⟨r, _, hmem⟩ := List.mem_flatMap.mp hq
    obtain ⟨h1, _, h3, h4⟩ := engine.planRemoved_mem rules r q hmem
    exact ⟨h1, h3, h4⟩
  rw [hA, hR]
  have hCsum : (diff.changed.flatMap (engine.planChanged rules)).countP
      (engine.planPred rule.id c.key (engine.msg rule c.key ++ suffix)) =
      (engine.planChanged rules c).countP
        (engine.planPred rule.id c.key (engine.msg rule c.key ++ suffix)) := by
    rw [engine.countP_flatMap]
    refine engine.sum_single engine.ChangedEntry.key _ diff.changed c hc hndCh ?_
    intro e _ hne
    rw [List.countP_eq_zero]
    intro q hq hpred
    obtain ⟨_, hkey, _⟩ := engine.planPred_requires _ _ _ q hpred
    have hqk := (engine.planChanged_mem rules e q hq).2.1
    exact hne (by rw [← hqk, hkey])
  rw [hCsum, engine.planChanged, engine.countP_flatMap]
  rw [show (0 + 0 : Nat) = 0 from rfl, Nat.zero_add]
  refine engine.sum_single engine.Rule.id _ rules rule hr hndIds ?_
  intro r' _ hne
  rw [List.countP_eq_zero]
  intro q hq hpred
  obtain ⟨hid, _, _⟩ := engine.planPred_requires _ _ _ q hpred
  have hqr := (engine.pairItemsChanged_mem c r' q hq).1
  exact hne (by rw [← hqr, hid])

theorem engine.planPred_true_of (rule : engine.Rule) (c : engine.ChangedEntry)
    (ctx : String) (note : Option String) (suffix : String)
    (hsuf : (match note with
             | some n => " (" ++ ctx ++ "; " ++ n ++ ")"
             | none => " (" ++ ctx ++ ")") = suffix) :
    engine.planPred rule.id c.key (engine.msg rule c.key ++ suffix)
      ⟨c.key, rule, ctx, note⟩ = true := by
  rw [engine.planPred]
  simp only [engine.itemFinding, engine.mkFinding, Bool.and_eq_true, beq_iff_eq]
  refine ⟨by simp, ?_⟩
  exact congrArg (fun s => engine.msg rule c.key ++ s) hsuf

/-- C3: for a changed entry and a rule whose key pattern matches, a rule
with a value pattern yields exactly one finding tagged "matches new value"
when the pattern matches the new value, exactly one finding tagged "matches
old value" when it matches the old value but not the new one, and a rule
without a value pattern is evaluated once against the key alone.  Stated
for diffs/rule sets whose keys and rule ids are duplicate-free and
colon-free and whose total match count stays under the cap, so that the
dedupe and cap stages of `applyRiskRules` pass every finding through. -/
theorem applyRiskRules_changed_semantics
    (diff : engine.DiffResult) (rules : List engine.Rule)
    (c : engine.ChangedEntry) (rule : engine.Rule)
    (hc : c ∈ diff.changed) (hr : rule ∈ rules)
    (hndAdd : (diff.added.map engine.AddedEntry.key).Nodup)
    (hndRem : (diff.removed.map engine.RemovedEntry.key).Nodup)
    (hndCh : (diff.changed.map engine.ChangedEntry.key).Nodup)
    (hndIds : (rules.map engine.Rule.id).Nodup)
    (hcolA : ∀ a ∈ diff.added, engine.noColon a.key)
    (hcolR : ∀ r ∈ diff.removed, engine.noColon r.key)
    (hcolC : ∀ e ∈ diff.changed, engine.noColon e.key)
    (hcolIds : ∀ r ∈ rules, engine.noColon r.id)
    (hsize : (diff.added.length + diff.removed.length + diff.changed.length) * rules.length ≤
      engine.MAX_FINDINGS) :
    (rule.valuePattern = none →
      engine.countFindings (engine.applyRiskRules diff rules).findings rule.id c.key
          (engine.msg rule c.key ++ " (changed)") =
        (if engine.matchesKey rule c.key then 1 else 0)) ∧
    (∀ p : String → Bool, rule.valuePattern = some p →
      engine.matchesKey rule c.key = true →
      (p c.toV = true →
        engine.countFindings (engine.applyRiskRules diff rules).findings rule.id c.key
            (engine.msg rule c.key ++ " (changed; matches new value)") = 1) ∧
      (p c.fromV = true → p c.toV = false →
        engine.countFindings (engine.applyRiskRules diff rules).findings rule.id c.key
            (engine.msg rule c.key ++ " (changed; matches old value)") = 1)) := by
  have hfp := engine.planOf_fp_nodup diff rules hndAdd hndRem hndCh hndIds hcolA hcolR hcolC hcolIds
  have hlen := le_trans (engine.planOf_length_le diff rules) hsize
  have hfind := engine.findings_eq_plan diff rules hfp hlen
  have hcount : ∀ suffix : String, (" (added)" : String) ≠ suffix →
      (" (removed)" : String) ≠ suffix →
      engine.countFindings (engine.applyRiskRules diff rules).findings rule.id c.key
          (engine.msg rule c.key ++ suffix) =
        (engine.pairItemsChanged c rule).countP
          (engine.planPred rule.id c.key (engine.msg rule c.key ++ suffix)) := by
    intro suffix hA hR
    rw [hfind, engine.countFindings_plan,
      engine.countP_plan_eq_pair diff rules rule c suffix hr hc hndIds hndCh hA hR]
  constructor
  · intro hvp
    rw [hcount " (changed)" (by decide) (by decide)]
    simp only [engine.pairItemsChanged, hvp]
    by_cases hk : engine.matchesKey rule c.key
    · rw [if_pos hk, if_pos hk, List.countP_cons, List.countP_nil,
        engine.planPred_true_of rule c "changed" none " (changed)" (by decide)]
      simp
    · rw [if_neg hk, if_neg hk, List.countP_nil]
  · intro p hvp hmk
    have hdef : ∀ v, engine.ruleMatches rule c.key (some v) = p v := by
      intro v
      simp only [engine.ruleMatches, engine.matchesValue, hvp, hmk, Bool.true_and]
    constructor
    · intro hto
      rw [hcount " (changed; matches new value)" (by decide) (by decide)]
      simp only [engine.pairItemsChanged, hvp, hdef, hto, Bool.not_true, Bool.and_false,
        if_true, if_false, List.append_nil]
      rw [if_neg (by simp : ¬ (false = true)), List.append_nil, List.countP_cons, List.countP_nil,
        engine.planPred_true_of rule c "changed" (some "matches new value")
          " (changed; matches new value)" (by decide)]
      simp
    · intro hfrom hto0
      rw [hcount " (changed; matches old value)" (by decide) (by decide)]
      simp only [engine.pairItemsChanged, hvp, hdef, hto0, hfrom, Bool.not_false,
        Bool.and_true, if_true, if_false, List.nil_append]
      rw [if_neg (by simp : ¬ (false = true)), List.nil_append, List.countP_cons, List.countP_nil,
        engine.planPred_true_of rule c "changed" (some "matches old value")
          " (changed; matches old value)" (by decide)]
      simp

/-- C3 witness: one changed entry `DEBUG: false -> true` and one rule whose
value pattern matches `"true"` yield exactly one finding, tagged
"matches new value". -/
theorem applyRiskRules_changed_semantics_witness :
    engine.countFindings
        (engine.applyRiskRules ⟨[], [], [⟨"DEBUG", "false", "true"⟩], []⟩
          [engine.wRule]).findings
        "w" "DEBUG" ("debug on" ++ " (changed; matches new value)") = 1 := by
  have h := applyRiskRules_changed_semantics
    ⟨[], [], [⟨"DEBUG", "false", "true"⟩], []⟩ [engine.wRule]
    ⟨"DEBUG", "false", "true"⟩ engine.wRule
    (by simp) (by simp)
    (by simp) (by simp) (by simp) (by simp)
    (by intro a ha; cases ha) (by intro r hr; cases hr)
    (by intro e he; simp only [List.mem_singleton] at he; subst he; decide)
    (by intro r hr; simp only [List.mem_singleton] at hr; subst hr; decide)
    (by decide)
  exact ((h.2 (fun v => v == "true") rfl (by decide)).1 (by decide))

/-! ### The finding cap (C4) -/

theorem engine.flatMap_map_comp {α β γ : Type _} (f : α → β) (g : β → List γ) :
    ∀ l : List α, (l.map f).flatMap g = l.flatMap (fun x => g (f x)) := by
  intro l
  induction l with
  | nil => rfl
  | cons a rest ih => simp [List.flatMap_cons, ih]

theorem engine.flatMap_singleton_eq_map {α β : Type _} (f : α → β) :
    ∀ l : List α, l.flatMap (fun x => [f x]) = l.map f := by
  intro l
  induction l with
  | nil => rfl
  | cons a rest ih => simp [List.flatMap_cons, ih]

theorem engine.demo_plan :
    engine.planOf engine.demoDiff [engine.demoRule] = (List.range 1000).map engine.demoItem := by
  rw [engine.planOf]
  show [] ++ [] ++ (engine.demoChanged 1000).flatMap (engine.planChanged [engine.demoRule]) = _
  rw [List.nil_append, List.nil_append, engine.demoChanged, engine.flatMap_map_comp]
  have h : (fun i => engine.planChanged [engine.demoRule]
      (⟨engine.demoKey i, "false", "true"⟩ : engine.ChangedEntry)) =
      fun i => [engine.demoItem i] := funext (fun i => rfl)
  rw [h, engine.flatMap_singleton_eq_map]

theorem engine.demo_fp_len (i : Nat) :
    (engine.itemFp (engine.demoItem i)).data.length = 31 + i := by
  have e : engine.itemFp (engine.demoItem i) =
      engine.fingerprintOf "r" "changed" (engine.demoKey i) "matches new value" := rfl
  rw [e, engine.data_fingerprintOf]
  simp only [List.length_append, List.length_cons, List.length_nil]
  have h1 : ("r" : String).data.length = 1 := by decide
  have h2 : ("changed" : String).data.length = 7 := by decide
  have h3 : ("matches new value" : String).data.length = 17 := by decide
  have h4 : (engine.demoKey i).data.length = i := by
    show (List.replicate i 'k').length = i
    exact List.length_replicate i 'k'
  omega

theorem engine.demo_fp_nodup :
    (((List.range 1000).map engine.demoItem).map engine.itemFp).Nodup := by
  rw [List.map_map]
  refine List.Nodup.map ?_ (List.nodup_range 1000)
  intro i j h
  have hl := congrArg (fun s : String => s.data.length) h
  simp only [Function.comp_apply] at hl
  rw [engine.demo_fp_len i, engine.demo_fp_len j] at hl
  omega

theorem engine.demo_findings_len :
    (engine.runRules engine.demoDiff [engine.demoRule]).findings.length = 500 := by
  rw [engine.runRules_eq_plan, engine.demo_plan]
  rw [engine.run_len_nodup ((List.range 1000).map engine.demoItem) [] []
    (by simp) engine.demo_fp_nodup]
  simp only [List.length_map, List.length_range, List.length_nil, engine.MAX_FINDINGS]
  omega

theorem engine.applyRiskRules_findings (diff : engine.DiffResult) (rules : List engine.Rule) :
    (engine.applyRiskRules diff rules).findings = (engine.runRules diff rules).findings := by
  simp only [engine.applyRiskRules]

theorem engine.applyRiskRules_warnings (diff : engine.DiffResult) (rules : List engine.Rule) :
    (engine.applyRiskRules diff rules).warnings =
      (if engine.MAX_FINDINGS ≤ (engine.runRules diff rules).findings.length then
        [engine.capWarning]
       else if 200 < (engine.runRules diff rules).findings.length then [engine.largeWarning]
       else []) := by
  simp only [engine.applyRiskRules]

/-- C4: `applyRiskRules` never returns more than 500 findings; its single
warning is the truncation warning when the cap is hit, the advisory warning
when the finding count exceeds 200 without hitting the cap, and nothing
otherwise; and a 1,000-match input yields exactly 500 findings plus the
truncation warning. -/
theorem applyRiskRules_cap :
    (∀ (diff : engine.DiffResult) (rules : List engine.Rule),
      (engine.applyRiskRules diff rules).findings.length ≤ engine.MAX_FINDINGS ∧
      (engine.applyRiskRules diff rules).warnings =
        (if engine.MAX_FINDINGS ≤ (engine.applyRiskRules diff rules).findings.length then
          [engine.capWarning]
         else if 200 < (engine.applyRiskRules diff rules).findings.length then
          [engine.largeWarning]
         else [])) ∧
    (engine.applyRiskRules engine.demoDiff [engine.demoRule]).findings.length = 500 ∧
    (engine.applyRiskRules engine.demoDiff [engine.demoRule]).warnings =
      [engine.capWarning] := by
  refine ⟨fun diff rules => ⟨?_, ?_⟩, ?_, ?_⟩
  · rw [engine.applyRiskRules_findings, engine.runRules_eq_plan]
    have h := engine.run_len_le (engine.planOf diff rules) ⟨[], []⟩
    simpa using h
  · rw [engine.applyRiskRules_warnings, engine.applyRiskRules_findings]
  · rw [engine.applyRiskRules_findings]
    exact engine.demo_findings_len
  · rw [engine.applyRiskRules_warnings, engine.demo_findings_len]
    rfl

/-! ### Env duplicate semantics (C5) -/

/-- C5: parsing env text that assigns `A` twice yields `A -> "2"` (last
write wins) and one duplicates record for `A` carrying both line numbers,
i.e. 2 occurrences. -/
theorem parseEnv_duplicate_semantics :
    (engine.parseEnv "A=1\nA=2" {}).entries = [("A", "2")] ∧
      (engine.parseEnv "A=1\nA=2" {}).duplicates =
        [({ key := "A", lines := [1, 2] } : engine.DupRecord)] ∧
      ((engine.parseEnv "A=1\nA=2" {}).duplicates.map (fun d => d.lines.length)) = [2] := by
  refine ⟨?_, ?_, ?_⟩ <;> decide


/-! ### Parse-failure isolation (C6) -/

theorem foldPreserve {σ α : Type _} (m : σ → Nat) (g : σ → α → σ)
    (h : ∀ s a, m (g s a) = m s) :
    ∀ (l : List α) (s : σ), m (l.foldl g s) = m s := by
  intro l
  induction l with
  | nil => intro s; rfl
  | cons a t ih => intro s; rw [List.foldl_cons, ih, h]

theorem pyaml.collectDupF_error_count (ls : List Nat) :
    ∀ (fuel : Nat) (node : Option pyaml.YNode) (path : String) (st : pyaml.DupState),
      (pyaml.collectDupF ls fuel node path st).issues.countP
          (fun it => it.kind == cdjson.IssueKind.error) =
        st.issues.countP (fun it => it.kind == cdjson.IssueKind.error) := by
  intro fuel
  induction fuel with
  | zero => intro node path st; rfl
  | succ fuel ih =>
    intro node path st
    match node with
    | none => rfl
    | some (pyaml.YNode.scalar v r) => rfl
    | some (pyaml.YNode.seq items r) =>
      show (((items.toList.enum).foldl _ st).issues.countP _) = _
      exact foldPreserve (fun st => st.issues.countP
        (fun it => it.kind == cdjson.IssueKind.error)) _
        (fun st ix => ih _ _ _) _ st
    | some (pyaml.YNode.map items r) =>
      show ((items.toList.foldl _ (([] : List (String × Nat)), st)).2.issues.countP _) = _
      refine foldPreserve
        (fun p : (List (String × Nat)) × pyaml.DupState =>
          p.2.issues.countP (fun it => it.kind == cdjson.IssueKind.error)) _
        ?_ items.toList ([], st)
      intro acc pair
      simp only []
      by_cases h0 : pyaml.keyNodeToString pair.1 = ""
      · simp [h0]
      · rw [if_neg h0]
        by_cases h1 : pyaml.keyNodeToString pair.1 = "<<"
        · rw [if_pos h1]
          exact ih _ _ _
        · rw [if_neg h1]
          simp only []
          rw [ih]
          by_cases h2 : 2 ≤ ((acc.1.lookup (pyaml.keyNodeToString pair.1)).getD 0) + 1
          · rw [if_pos h2]
            by_cases h3 : acc.2.issues.any (fun it =>
                jsIncludes it.message ("Duplicate key \x27" ++
                  (if path ≠ "" then path ++ "." ++ pyaml.keyNodeToString pair.1
                   else pyaml.keyNodeToString pair.1) ++ "\x27"))
            · rw [if_pos h3]
            · rw [if_neg h3]
              simp [List.countP_append]
          · rw [if_neg h2]


/-- C6: a structurally unparsable document (a thrown `JSON.parse`, a thrown
`YAML.parseDocument`, a document with syntax errors, or a throwing `toJS`)
makes the parser return normally with an empty values map and exactly one
error-kind issue, and the two sides of a comparison are parsed by
independent calls, so one side\x27s outcome never affects the other. -/
theorem parse_failure_isolated :
    (∀ e opts,
      (cdjson.parseJsonToFlatMap (Except.error e) opts).values = [] ∧
      (cdjson.parseJsonToFlatMap (Except.error e) opts).meta.issues.countP
        (fun it => it.kind == cdjson.IssueKind.error) = 1 ∧
      (cdjson.parseJsonToFlatMap (Except.error e) opts).meta.issues.length = 1) ∧
    (∀ text e opts,
      (pyaml.parseYamlToFlatMap text (Except.error e) opts).values = [] ∧
      (pyaml.parseYamlToFlatMap text (Except.error e) opts).meta.issues.countP
        (fun it => it.kind == cdjson.IssueKind.error) = 1 ∧
      (pyaml.parseYamlToFlatMap text (Except.error e) opts).meta.issues.length = 1) ∧
    (∀ text first rest contents toJS opts,
      (pyaml.parseYamlToFlatMap text
        (Except.ok ⟨first :: rest, contents, toJS⟩) opts).values = [] ∧
      (pyaml.parseYamlToFlatMap text
        (Except.ok ⟨first :: rest, contents, toJS⟩) opts).meta.issues.countP
          (fun it => it.kind == cdjson.IssueKind.error) = 1 ∧
      (pyaml.parseYamlToFlatMap text
        (Except.ok ⟨first :: rest, contents, toJS⟩) opts).meta.issues.length = 1) ∧
    (∀ text contents e opts,
      (pyaml.parseYamlToFlatMap text (Except.ok ⟨[], contents, Except.error e⟩) opts).values
        = [] ∧
      (pyaml.parseYamlToFlatMap text
        (Except.ok ⟨[], contents, Except.error e⟩) opts).meta.issues.countP
          (fun it => it.kind == cdjson.IssueKind.error) = 1) ∧
    (∀ l r r2 opts, (cdjson.parseSides l r opts).1 = (cdjson.parseSides l r2 opts).1) ∧
    (∀ l l2 r opts, (cdjson.parseSides l r opts).2 = (cdjson.parseSides l2 r opts).2) := by
  refine ⟨?_, ?_, ?_, ?_, fun l r r2 opts => rfl, fun l l2 r opts => rfl⟩
  · intro e opts
    refine ⟨rfl, ?_, rfl⟩
    simp [cdjson.parseJsonToFlatMap, List.countP_cons]
  · intro text e opts
    refine ⟨rfl, ?_, rfl⟩
    simp [pyaml.parseYamlToFlatMap, List.countP_cons]
  · intro text first rest contents toJS opts
    refine ⟨rfl, ?_, rfl⟩
    simp [pyaml.parseYamlToFlatMap, List.countP_cons]
  · intro text contents e opts
    refine ⟨rfl, ?_⟩
    show ((pyaml.collectDupF _ _ _ _ ⟨[], [], []⟩).issues ++ _).countP _ = 1
    rw [List.countP_append, pyaml.collectDupF_error_count]
    simp [List.countP_cons]


/-! ### The key cap (C7) -/

theorem jsRecSet_length {α : Type _} :
    ∀ (values : List (String × α)) (k : String) (v : α),
      (jsRecSet values k v).length ≤ values.length + 1 := by
  intro values k v
  induction values with
  | nil => simp [jsRecSet]
  | cons p rest ih =>
    obtain ⟨k2, v2⟩ := p
    by_cases hk : k2 = k
    · simp [jsRecSet, hk]
    · simp only [jsRecSet, if_neg hk, List.length_cons]
      omega

theorem cdjson.emitFold_length :
    ∀ (l : List (String × J)) (values : List (String × String))
      (dups : List (String × Nat)),
      (cdjson.emitFold values dups l).1.length ≤ values.length + l.length := by
  intro l
  induction l with
  | nil => intro values dups; simp [cdjson.emitFold]
  | cons p rest ih =>
    intro values dups
    obtain ⟨k, v⟩ := p
    show (cdjson.emitFold (jsRecSet values k _) _ rest).1.length ≤ _
    calc (cdjson.emitFold (jsRecSet values k (cdjson.valueToStableString v)) _ rest).1.length
        ≤ (jsRecSet values k (cdjson.valueToStableString v)).length + rest.length := ih _ _
      _ ≤ values.length + 1 + rest.length := by
          have := jsRecSet_length values k (cdjson.valueToStableString v)
          omega
      _ = values.length + (rest.length + 1) := by omega
      _ = values.length + ((k, v) :: rest).length := by rw [List.length_cons]

theorem pyaml.storeAll_length :
    ∀ (l : List (String × J)) (values : List (String × String)),
      (pyaml.storeAll values l).length ≤ values.length + l.length := by
  intro l
  induction l with
  | nil => intro values; simp [pyaml.storeAll]
  | cons p rest ih =>
    intro values
    obtain ⟨k, v⟩ := p
    show (pyaml.storeAll (jsRecSet values k _) rest).length ≤ _
    calc (pyaml.storeAll (jsRecSet values k (cdjson.valueToStableString v)) rest).length
        ≤ (jsRecSet values k (cdjson.valueToStableString v)).length + rest.length := ih _
      _ ≤ values.length + 1 + rest.length := by
          have := jsRecSet_length values k (cdjson.valueToStableString v)
          omega
      _ = values.length + (rest.length + 1) := by omega
      _ = values.length + ((k, v) :: rest).length := by rw [List.length_cons]


/-- C7: when flattening a JSON or YAML document would emit more than the
key cap, the parser reports a terminal "too large" error-kind issue to the
caller (exactly one for that side), and the values it returns hold at most
`maxKeys` entries. -/
theorem parse_too_large_raised :
    (∀ v opts, cdjson.rootPrimitive v = false →
      cdjson.maxKeysOf opts <
        (cdjson.flattenSeq (opts.arrayMode.getD cdjson.JsonArrayMode.index) v "").length →
      (cdjson.parseJsonToFlatMap (Except.ok v) opts).meta.issues =
        [⟨1, cdjson.IssueKind.error,
          "JSON too large (>" ++ toString (cdjson.maxKeysOf opts) ++ " flattened keys)."⟩] ∧
      (cdjson.parseJsonToFlatMap (Except.ok v) opts).values.length ≤ cdjson.maxKeysOf opts) ∧
    (∀ text contents v opts, cdjson.rootPrimitive v = false →
      cdjson.maxKeysOf opts <
        (pyaml.flatten (opts.arrayMode.getD cdjson.JsonArrayMode.index) v "").length →
      (pyaml.parseYamlToFlatMap text (Except.ok ⟨[], contents, Except.ok v⟩) opts).meta.issues.countP
          (fun it => it.kind == cdjson.IssueKind.error) = 1 ∧
      (⟨1, cdjson.IssueKind.error,
          "YAML too large (>" ++ toString (cdjson.maxKeysOf opts) ++ " flattened keys)."⟩ : cdjson.ParseIssue) ∈
        (pyaml.parseYamlToFlatMap text (Except.ok ⟨[], contents, Except.ok v⟩) opts).meta.issues ∧
      (pyaml.parseYamlToFlatMap text
          (Except.ok ⟨[], contents, Except.ok v⟩) opts).values.length ≤ cdjson.maxKeysOf opts) := by
  constructor
  · intro v opts hroot hbig
    match v with
    | J.null => simp [cdjson.rootPrimitive] at hroot
    | J.undef => simp [cdjson.rootPrimitive] at hroot
    | J.bool b => simp [cdjson.rootPrimitive] at hroot
    | J.num r => simp [cdjson.rootPrimitive] at hroot
    | J.str t => simp [cdjson.rootPrimitive] at hroot
    | J.arr xs =>
      simp only [cdjson.parseJsonToFlatMap]
      rw [if_pos hbig]
      refine ⟨rfl, ?_⟩
      have h1 := cdjson.emitFold_length
        (((cdjson.flattenSeq (opts.arrayMode.getD cdjson.JsonArrayMode.index)
          (J.arr xs) "")).take (cdjson.maxKeysOf opts)) [] []
      have h2 : (((cdjson.flattenSeq (opts.arrayMode.getD cdjson.JsonArrayMode.index)
          (J.arr xs) "")).take (cdjson.maxKeysOf opts)).length ≤ cdjson.maxKeysOf opts := by
        rw [List.length_take]
        omega
      simpa using le_trans h1 (by simpa using h2)
    | J.obj fs =>
      simp only [cdjson.parseJsonToFlatMap]
      rw [if_pos hbig]
      refine ⟨rfl, ?_⟩
      have h1 := cdjson.emitFold_length
        (((cdjson.flattenSeq (opts.arrayMode.getD cdjson.JsonArrayMode.index)
          (J.obj fs) "")).take (cdjson.maxKeysOf opts)) [] []
      have h2 : (((cdjson.flattenSeq (opts.arrayMode.getD cdjson.JsonArrayMode.index)
          (J.obj fs) "")).take (cdjson.maxKeysOf opts)).length ≤ cdjson.maxKeysOf opts := by
        rw [List.length_take]
        omega
      simpa using le_trans h1 (by simpa using h2)
  · intro text contents v opts hroot hbig
    match v with
    | J.null => simp [cdjson.rootPrimitive] at hroot
    | J.undef => simp [cdjson.rootPrimitive] at hroot
    | J.bool b => simp [cdjson.rootPrimitive] at hroot
    | J.num r => simp [cdjson.rootPrimitive] at hroot
    | J.str t => simp [cdjson.rootPrimitive] at hroot
    | J.arr xs =>
      simp only [pyaml.parseYamlToFlatMap]
      rw [if_pos hbig]
      refine ⟨?_, ?_, ?_⟩
      · rw [List.countP_append, pyaml.collectDupF_error_count]
        simp [List.countP_cons]
      · exact List.mem_append_right _ (List.mem_singleton.mpr rfl)
      · have h1 := pyaml.storeAll_length
          (((pyaml.flatten (opts.arrayMode.getD cdjson.JsonArrayMode.index)
            (J.arr xs) "")).take (cdjson.maxKeysOf opts)) []
        have h2 : (((pyaml.flatten (opts.arrayMode.getD cdjson.JsonArrayMode.index)
            (J.arr xs) "")).take (cdjson.maxKeysOf opts)).length ≤ cdjson.maxKeysOf opts := by
          rw [List.length_take]
          omega
        simpa using le_trans h1 (by simpa using h2)
    | J.obj fs =>
      simp only [pyaml.parseYamlToFlatMap]
      rw [if_pos hbig]
      refine ⟨?_, ?_, ?_⟩
      · rw [List.countP_append, pyaml.collectDupF_error_count]
        simp [List.countP_cons]
      · exact List.mem_append_right _ (List.mem_singleton.mpr rfl)
      · have h1 := pyaml.storeAll_length
          (((pyaml.flatten (opts.arrayMode.getD cdjson.JsonArrayMode.index)
            (J.obj fs) "")).take (cdjson.maxKeysOf opts)) []
        have h2 : (((pyaml.flatten (opts.arrayMode.getD cdjson.JsonArrayMode.index)
            (J.obj fs) "")).take (cdjson.maxKeysOf opts)).length ≤ cdjson.maxKeysOf opts := by
          rw [List.length_take]
          omega
        simpa using le_trans h1 (by simpa using h2)


/-- C7 witness: a three-key object against a cap of 2 trips both the JSON
and the YAML too-large path. -/
theorem parse_too_large_raised_witness :
    (cdjson.rootPrimitive
        (J.obj (JFields.ofList [("a", J.str "1"), ("b", J.str "2"), ("c", J.str "3")])) = false ∧
      cdjson.maxKeysOf { maxKeys := some 2 } <
        (cdjson.flattenSeq
          (({ maxKeys := some 2 } : cdjson.JsonParseOptions).arrayMode.getD
            cdjson.JsonArrayMode.index)
          (J.obj (JFields.ofList [("a", J.str "1"), ("b", J.str "2"), ("c", J.str "3")]))
          "").length) ∧
    ((cdjson.parseJsonToFlatMap
        (Except.ok (J.obj (JFields.ofList [("a", J.str "1"), ("b", J.str "2"), ("c", J.str "3")])))
        { maxKeys := some 2 }).meta.issues =
      [⟨1, cdjson.IssueKind.error,
        "JSON too large (>" ++ toString (cdjson.maxKeysOf { maxKeys := some 2 }) ++
          " flattened keys)."⟩] ∧
      (cdjson.parseJsonToFlatMap
        (Except.ok (J.obj (JFields.ofList [("a", J.str "1"), ("b", J.str "2"), ("c", J.str "3")])))
        { maxKeys := some 2 }).values.length ≤ cdjson.maxKeysOf { maxKeys := some 2 }) :=
  ⟨⟨by decide, by decide⟩,
    parse_too_large_raised.1
      (J.obj (JFields.ofList [("a", J.str "1"), ("b", J.str "2"), ("c", J.str "3")]))
      { maxKeys := some 2 } (by decide) (by decide)⟩


/-! ### Sorted flattening (C8) -/

theorem jsize_pos : ∀ v : J, 1 ≤ jsize v := by
  intro v
  cases v <;> simp [jsize]

theorem jsize_mem_arrL : ∀ (xs : JList) (x : J), x ∈ xs.toList → jsize x < 1 + jsizeL xs
  | JList.cons y t, x, hx => by
    rw [JList.toList] at hx
    rcases List.mem_cons.mp hx with h | h
    · subst h; simp [jsizeL]; omega
    · have h2 := jsize_mem_arrL t x h
      simp only [jsizeL] at h2 ⊢
      omega

theorem jsize_mem_arr (xs : JList) : ∀ x ∈ xs.toList, jsize x < jsize (J.arr xs) := by
  intro x hx
  have h := jsize_mem_arrL xs x hx
  simpa [jsize] using h

theorem jsize_mem_objF : ∀ (fs : JFields) (k : String) (v : J),
    (k, v) ∈ fs.toList → jsize v < 1 + jsizeF fs
  | JFields.cons k2 v2 t, k, v, hv => by
    rw [JFields.toList] at hv
    rcases List.mem_cons.mp hv with h | h
    · rw [Prod.mk.injEq] at h
      rw [h.2] at *
      simp [jsizeF]; omega
    · have h2 := jsize_mem_objF t k v h
      simp only [jsizeF] at h2 ⊢
      omega

theorem jsize_mem_obj (fs : JFields) (k : String) (v : J) (hv : (k, v) ∈ fs.toList) :
    jsize v < jsize (J.obj fs) := by
  have h := jsize_mem_objF fs k v hv
  simpa [jsize] using h

theorem lookup_mem {α : Type _} : ∀ (l : List (String × α)) (k : String) (v : α),
    l.lookup k = some v → (k, v) ∈ l := by
  intro l k v
  induction l with
  | nil => intro h; simp [List.lookup] at h
  | cons p rest ih =>
    obtain ⟨k2, v2⟩ := p
    intro h
    by_cases hk : k = k2
    · subst hk
      rw [List.lookup, show (k == k) = true from beq_self_eq_true k] at h
      simp only [Option.some.injEq] at h
      subst h
      exact List.mem_cons_self _ _
    · rw [List.lookup, show (k == k2) = false from beq_eq_false_iff_ne.mpr hk] at h
      exact List.mem_cons_of_mem _ (ih h)

theorem mem_keys_lookup {α : Type _} : ∀ (l : List (String × α)) (k : String),
    k ∈ l.map Prod.fst → ∃ v, l.lookup k = some v := by
  intro l k
  induction l with
  | nil => intro h; simp at h
  | cons p rest ih =>
    obtain ⟨k2, v2⟩ := p
    intro h
    by_cases hk : k = k2
    · subst hk
      exact ⟨v2, by rw [List.lookup, show (k == k) = true from beq_self_eq_true k]⟩
    · rw [List.map_cons, List.mem_cons] at h
      rcases h with h | h
      · exact absurd h hk
      · obtain ⟨v, hv⟩ := ih h
        exact ⟨v, by rw [List.lookup, show (k == k2) = false from beq_eq_false_iff_ne.mpr hk, hv]⟩

theorem flatMap_congr_mem {α β : Type _} : ∀ (l : List α) (f g : α → List β),
    (∀ a ∈ l, f a = g a) → l.flatMap f = l.flatMap g := by
  intro l f g h
  induction l with
  | nil => rfl
  | cons a t ih =>
    rw [List.flatMap_cons, List.flatMap_cons, h a (List.mem_cons_self a t),
      ih (fun x hx => h x (List.mem_cons_of_mem _ hx))]

theorem worker.nodupKeys_iff : ∀ l : List String, worker.nodupKeys l = true ↔ l.Nodup := by
  intro l
  induction l with
  | nil => simp [worker.nodupKeys]
  | cons a t ih =>
    simp [worker.nodupKeys, List.nodup_cons, ih, List.elem_iff]

theorem worker.sort_eq_of (l1 l2 : List String) (h1 : l1.Nodup) (hn2 : l2.Nodup)
    (hlen : l1.length = l2.length) (hsub : l1 ⊆ l2) :
    List.insertionSort worker.ordinalLe l1 = List.insertionSort worker.ordinalLe l2 := by
  have hperm : l1.Perm l2 := (h1.subperm hsub).perm_of_length_le (le_of_eq hlen.symm)
  refine List.eq_of_perm_of_sorted ?_
    (List.sorted_insertionSort _ _) (List.sorted_insertionSort _ _)
  exact ((List.perm_insertionSort _ l1).trans hperm).trans (List.perm_insertionSort _ l2).symm


theorem worker.enum_flatMap_congr (g1 g2 : Nat)
    (F : Nat → J → String → List (String × String))
    (R : J → J → Prop)
    (hR : ∀ a b, R a b → ∀ path, F g1 a path = F g2 b path) :
    ∀ (l1 l2 : List J) (n : Nat) (path : String),
      l1.length = l2.length →
      (∀ p ∈ l1.zip l2, R p.1 p.2) →
      (List.enumFrom n l1).flatMap
          (fun ix => F g1 ix.2 (path ++ "[" ++ toString ix.1 ++ "]")) =
        (List.enumFrom n l2).flatMap
          (fun ix => F g2 ix.2 (path ++ "[" ++ toString ix.1 ++ "]")) := by
  intro l1
  induction l1 with
  | nil =>
    intro l2 n path hlen hall
    have : l2 = [] := List.eq_nil_of_length_eq_zero hlen.symm
    subst this
    rfl
  | cons x t ih =>
    intro l2 n path hlen hall
    match l2 with
    | [] => simp at hlen
    | y :: t2 =>
      rw [List.enumFrom_cons, List.enumFrom_cons, List.flatMap_cons, List.flatMap_cons]
      have hxy : R x y := hall (x, y) (by rw [List.zip_cons_cons]; exact List.mem_cons_self _ _)
      rw [hR x y hxy]
      rw [ih t2 (n + 1) path (by simpa using hlen)
        (fun p hp => hall p (by rw [List.zip_cons_cons]; exact List.mem_cons_of_mem _ hp))]

theorem worker.wflattenF_congr :
    ∀ (f : Nat) (a b : J), worker.jsonStructEqF f a b = true →
      ∀ (path : String) (f1 f2 : Nat), jsize a ≤ f1 → jsize b ≤ f2 →
        worker.wflattenF worker.WArrayMode.ordered f1 a path =
          worker.wflattenF worker.WArrayMode.ordered f2 b path := by
  intro f
  induction f with
  | zero => intro a b h; simp [worker.jsonStructEqF] at h
  | succ f ih =>
    intro a b h path f1 f2 hf1 hf2
    obtain ⟨g1, rfl⟩ : ∃ g1, f1 = g1 + 1 := ⟨f1 - 1, by have := jsize_pos a; omega⟩
    obtain ⟨g2, rfl⟩ : ∃ g2, f2 = g2 + 1 := ⟨f2 - 1, by have := jsize_pos b; omega⟩
    cases a <;> cases b <;>
      first
        | rfl
        | (simp [worker.jsonStructEqF] at h; done)
        | skip
    case bool.bool x y =>
      have hxy : x = y := by simpa [worker.jsonStructEqF] using h
      subst hxy
      rfl
    case num.num x y =>
      have hxy : x = y := by simpa [worker.jsonStructEqF] using h
      subst hxy
      rfl
    case str.str x y =>
      have hxy : x = y := by simpa [worker.jsonStructEqF] using h
      subst hxy
      rfl
    case arr.arr xs ys =>
      have h2 := h
      simp only [worker.jsonStructEqF, Bool.and_eq_true, beq_iff_eq, List.all_eq_true] at h2
      obtain ⟨hlen, hall⟩ := h2
      show (xs.toList.enum).flatMap _ = (ys.toList.enum).flatMap _
      have hb1 : ∀ x ∈ xs.toList, jsize x ≤ g1 := by
        intro x hx
        have := jsize_mem_arr xs x hx
        simp only [jsize] at hf1 this ⊢
        omega
      have hb2 : ∀ y ∈ ys.toList, jsize y ≤ g2 := by
        intro y hy
        have := jsize_mem_arr ys y hy
        simp only [jsize] at hf2 this ⊢
        omega
      show (List.enumFrom 0 xs.toList).flatMap _ = (List.enumFrom 0 ys.toList).flatMap _
      refine worker.enum_flatMap_congr g1 g2 (worker.wflattenF worker.WArrayMode.ordered)
        (fun v w => worker.jsonStructEqF f v w = true ∧ jsize v ≤ g1 ∧ jsize w ≤ g2)
        (fun v w hvw path2 => ih v w hvw.1 path2 g1 g2 hvw.2.1 hvw.2.2)
        xs.toList ys.toList 0 path hlen ?_
      intro p hp
      refine ⟨hall p hp, hb1 p.1 (List.of_mem_zip hp).1, hb2 p.2 (List.of_mem_zip hp).2⟩
    case obj.obj fs gs =>
      have h2 := h
      simp only [worker.jsonStructEqF, Bool.and_eq_true] at h2
      obtain ⟨⟨⟨⟨hn1, hn2⟩, hlenB⟩, hsubB⟩, hvalsB⟩ := h2
      have hlen : fs.toList.length = gs.toList.length := by
        have := hlenB
        simpa using this
      have hsub : ∀ k ∈ fs.toList.map Prod.fst,
          (gs.toList.map Prod.fst).contains k = true := by
        intro k hk
        exact List.all_eq_true.mp hsubB k hk
      have hvals : ∀ kv ∈ fs.toList,
          (match gs.toList.lookup kv.1 with
           | some w => worker.jsonStructEqF f kv.2 w
           | none => false) = true := by
        intro kv hkv
        exact List.all_eq_true.mp hvalsB kv hkv
      have hnd1 : (fs.toList.map Prod.fst).Nodup := (worker.nodupKeys_iff _).mp hn1
      have hnd2 : (gs.toList.map Prod.fst).Nodup := (worker.nodupKeys_iff _).mp hn2
      have hsub2 : (fs.toList.map Prod.fst) ⊆ (gs.toList.map Prod.fst) := by
        intro k hk
        have h4 := hsub k hk
        exact List.elem_iff.mp h4
      have hlen2 : (fs.toList.map Prod.fst).length = (gs.toList.map Prod.fst).length := by
        simp [hlen]
      have hsort := worker.sort_eq_of _ _ hnd1 hnd2 hlen2 hsub2
      show (List.insertionSort worker.ordinalLe (fs.toList.map Prod.fst)).flatMap _ =
        (List.insertionSort worker.ordinalLe (gs.toList.map Prod.fst)).flatMap _
      rw [hsort]
      refine flatMap_congr_mem _ _ _ ?_
      intro k hk
      have hk2 : k ∈ gs.toList.map Prod.fst :=
        (List.perm_insertionSort worker.ordinalLe _).mem_iff.mp hk
      have hk1 : k ∈ fs.toList.map Prod.fst := by
        rw [← hsort] at hk
        exact (List.perm_insertionSort worker.ordinalLe _).mem_iff.mp hk
      obtain ⟨v, hv⟩ := mem_keys_lookup fs.toList k hk1
      obtain ⟨w, hw⟩ := mem_keys_lookup gs.toList k hk2
      have hmemv : (k, v) ∈ fs.toList := lookup_mem _ _ _ hv
      have hvw : worker.jsonStructEqF f v w = true := by
        have h3 := hvals (k, v) hmemv
        rw [hw] at h3
        exact h3
      rw [hv, hw]
      simp only [Option.getD_some]
      refine ih v w hvw _ g1 g2 ?_ ?_
      · have := jsize_mem_obj fs k v hmemv
        simp only [jsize] at hf1 this ⊢
        omega
      · have := jsize_mem_obj gs k w (lookup_mem _ _ _ hw)
        simp only [jsize] at hf2 this ⊢
        omega


/-- C8 counterexample: the configdiff.ts and parseYaml.ts flatteners visit
object keys in source order, not sorted order: two structurally identical
documents (same keys, different order; `jsonStructEq` holds) flatten to
different key-to-value sequences, and the parsed values records list their
keys in different orders. -/
theorem flatten_source_order_counterexample :
    worker.jsonStructEq
        (J.obj (JFields.ofList [("b", J.str "1"), ("a", J.str "2")]))
        (J.obj (JFields.ofList [("a", J.str "2"), ("b", J.str "1")])) = true ∧
    cdjson.flattenSeq cdjson.JsonArrayMode.index
        (J.obj (JFields.ofList [("b", J.str "1"), ("a", J.str "2")])) "" ≠
      cdjson.flattenSeq cdjson.JsonArrayMode.index
        (J.obj (JFields.ofList [("a", J.str "2"), ("b", J.str "1")])) "" ∧
    pyaml.flatten cdjson.JsonArrayMode.index
        (J.obj (JFields.ofList [("b", J.str "1"), ("a", J.str "2")])) "" ≠
      pyaml.flatten cdjson.JsonArrayMode.index
        (J.obj (JFields.ofList [("a", J.str "2"), ("b", J.str "1")])) "" ∧
    (cdjson.parseJsonToFlatMap
        (Except.ok (J.obj (JFields.ofList [("b", J.str "1"), ("a", J.str "2")]))) {}).values ≠
      (cdjson.parseJsonToFlatMap
        (Except.ok (J.obj (JFields.ofList [("a", J.str "2"), ("b", J.str "1")]))) {}).values := by
  refine ⟨by decide, by decide, by decide, by decide⟩

/-- C8 (amended): the compare.worker.ts flattener does visit object keys in
sorted order, so structurally identical documents that list the same object
keys in different orders produce identical flattened key-to-value
sequences. -/
theorem worker_flatten_respects_structEq (a b : J)
    (h : worker.jsonStructEq a b = true) :
    worker.flattenJson worker.WArrayMode.ordered a =
      worker.flattenJson worker.WArrayMode.ordered b :=
  worker.wflattenF_congr _ a b h "" (jsize a) (jsize b) le_rfl le_rfl

/-- C8 witness: two nested documents with reordered keys flatten to the
same sequence through the worker flattener. -/
theorem worker_flatten_respects_structEq_witness :
    worker.jsonStructEq
        (J.obj (JFields.ofList
          [("b", J.str "1"),
           ("a", J.obj (JFields.ofList [("y", J.num "2"), ("x", J.bool true)]))]))
        (J.obj (JFields.ofList
          [("a", J.obj (JFields.ofList [("x", J.bool true), ("y", J.num "2")])),
           ("b", J.str "1")])) = true ∧
      worker.flattenJson worker.WArrayMode.ordered
          (J.obj (JFields.ofList
            [("b", J.str "1"),
             ("a", J.obj (JFields.ofList [("y", J.num "2"), ("x", J.bool true)]))])) =
        worker.flattenJson worker.WArrayMode.ordered
          (J.obj (JFields.ofList
            [("a", J.obj (JFields.ofList [("x", J.bool true), ("y", J.num "2")])),
             ("b", J.str "1")])) :=
  ⟨by decide,
    worker_flatten_respects_structEq
      (J.obj (JFields.ofList
        [("b", J.str "1"),
         ("a", J.obj (JFields.ofList [("y", J.num "2"), ("x", J.bool true)]))]))
      (J.obj (JFields.ofList
        [("a", J.obj (JFields.ofList [("x", J.bool true), ("y", J.num "2")])),
         ("b", J.str "1")]))
      (by decide)⟩


/-! ### Short-value redaction (C9) -/

/-- C9 counterexample: two non-URL values both shorter than
`minMaskLength = 8` redact to masks of different lengths (`max(len, 4)`),
so the mask is not fixed-length and leaks the length of values longer
than 4. -/
theorem redact_short_mask_counterexample :
    "abcdef".length ≤ redact.DEFAULTS.minMaskLength ∧
    "abc".length ≤ redact.DEFAULTS.minMaskLength ∧
    (redact.redactValue "abcdef" redact.DEFAULTS (fun _ => none)).redacted = "••••••" ∧
    (redact.redactValue "abc" redact.DEFAULTS (fun _ => none)).redacted = "••••" ∧
    (redact.redactValue "abcdef" redact.DEFAULTS (fun _ => none)).redacted ≠
      (redact.redactValue "abc" redact.DEFAULTS (fun _ => none)).redacted := by
  refine ⟨by decide, by decide, by decide, by decide, by decide⟩

/-- C9 (amended): a non-URL value no longer than `minMaskLength` (default 8)
is fully masked — the redacted string is `maskChar.repeat(max(len, 4))`, so
no character of the value survives — but its length is `max(len, 4)`, not a
fixed constant: it equals the value\x27s length for values of length 5 to 8,
and only values of length at most 4 share the identical 4-character mask. -/
theorem redact_short_fully_masked (value : String) (u : String → Option redact.UrlParts)
    (h1 : redact.looksLikeUrl value = false)
    (h2 : value.length ≤ redact.DEFAULTS.minMaskLength) :
    redact.redactValue value redact.DEFAULTS u =
      ⟨value.length, jsRepeat "•" (max value.length 4)⟩ ∧
    ∀ c ∈ (redact.redactValue value redact.DEFAULTS u).redacted.data, c = '•' := by
  have hv : redact.redactValue value redact.DEFAULTS u =
      ⟨value.length, jsRepeat "•" (max value.length 4)⟩ := by
    rw [redact.redactValue, if_neg (by simp [h1])]
    rw [redact.basicMask]
    simp only []
    rw [if_pos h2]
    rfl
  refine ⟨hv, ?_⟩
  rw [hv]
  intro c hc
  show c = '•'
  have hc2 : c ∈ (List.replicate (max value.length 4) ("•".data)).flatten := hc
  obtain ⟨l, hl, hcl⟩ := List.mem_flatten.mp hc2
  have := List.eq_of_mem_replicate hl
  subst this
  simpa using hcl

/-- C9 witness: the three-character value is fully masked to `••••`. -/
theorem redact_short_fully_masked_witness :
    (redact.looksLikeUrl "abc" = false ∧
      "abc".length ≤ redact.DEFAULTS.minMaskLength) ∧
    redact.redactValue "abc" redact.DEFAULTS (fun _ => none) =
      ⟨"abc".length, jsRepeat "•" (max "abc".length 4)⟩ :=
  ⟨⟨by decide, by decide⟩,
    (redact_short_fully_masked "abc" (fun _ => none) (by decide) (by decide)).1⟩


/-! ### Line resolution (C10) -/

/-- C10 counterexample: the message scan does not always take the last
`line N` match.  The `at line N` pattern is tried before the global
`line N` scan and returns its own (first) number: for
"at line 3, also line 9" the resolver answers 3, although several `line N`
mentions appear and the last one is 9. -/
theorem extractLineStart_not_always_last :
    lineres.extractLineStart { message := some "at line 3, also line 9" } = some 3 ∧
    lineres.genCollectF ("at line 3, also line 9".data.map Char.toLower).length
        ("at line 3, also line 9".data.map Char.toLower) = [3, 9] ∧
    (lineres.genCollectF ("at line 3, also line 9".data.map Char.toLower).length
        ("at line 3, also line 9".data.map Char.toLower)).getLast? = some 9 := by
  refine ⟨by decide, by decide, by decide⟩

/-- C10 (amended): the resolver tries, in order: (1) an attached positive
numeric line; (2) the key/id-like field; (3) the message field; and
returns `none` when all fail.  Within one text field the patterns are
tried in order side (`left|right ... line N`), `at line N` (first match),
global `line N` (last match), `L`/`R` prefix — so the last `line N` mention
wins only when no side or `at` pattern matches earlier. -/
theorem extractLineStart_precedence :
    (∀ (i : lineres.Issue) (d : Int), i.line = some d → 0 < d →
      lineres.extractLineStart i = some d) ∧
    (∀ (i : lineres.Issue) (n : Nat), lineres.directOf i = none →
      lineres.tryParse (lineres.keyishOf i) = some n →
      lineres.extractLineStart i = some (n : Int)) ∧
    (∀ (i : lineres.Issue) (n : Nat), lineres.directOf i = none →
      lineres.tryParse (lineres.keyishOf i) = none →
      lineres.tryParse (lineres.messageOf i) = some n →
      lineres.extractLineStart i = some (n : Int)) ∧
    (∀ i : lineres.Issue, lineres.directOf i = none →
      lineres.tryParse (lineres.keyishOf i) = none →
      lineres.tryParse (lineres.messageOf i) = none →
      lineres.extractLineStart i = none) ∧
    lineres.tryParse "at line 3, also line 9" = some 3 ∧
    lineres.tryParse "right: line 2 at line 5" = some 2 ∧
    lineres.tryParse "line 3, line 9" = some 9 ∧
    lineres.tryParse "L7" = some 7 ∧
    lineres.tryParse "see line 4 and L7" = some 4 ∧
    lineres.tryParse "nothing here" = none := by
  refine ⟨?_, ?_, ?_, ?_, by decide, by decide, by decide, by decide, by decide, by decide⟩
  · intro i d hline hd
    rw [lineres.extractLineStart, lineres.directOf, hline]
    simp only [Option.some_orElse]
    rw [if_pos hd]
  · intro i n hdir hkey
    rw [lineres.extractLineStart, hdir, lineres.fromText, hkey]
  · intro i n hdir hkey hmsg
    rw [lineres.extractLineStart, hdir, lineres.fromText, hkey, hmsg]
  · intro i hdir hkey hmsg
    rw [lineres.extractLineStart, hdir, lineres.fromText, hkey, hmsg]

/-- C10 witness: an attached positive line wins over any message text. -/
theorem extractLineStart_precedence_witness :
    (({ line := some 4, message := some "line 9" } : lineres.Issue).line = some 4 ∧
      (0 : Int) < 4) ∧
    lineres.extractLineStart { line := some 4, message := some "line 9" } = some 4 :=
  ⟨⟨rfl, by decide⟩,
    extractLineStart_precedence.1 { line := some 4, message := some "line 9" } 4 rfl
      (by decide)⟩
